import Mathlib

/-!
Verification of the eapteka feed handler core, shallowly embedded in Lean 4.

The embedding covers:
* `handler/calculation.py` — IQR outlier filtering and the `clear_*` statistics
  (`calc_quantile`, `clear_min`, `clear_max`, `clear_median`, `clear_avg`),
  modelled over `ℚ` with numpy's linear-interpolation quantile;
* `handler/feeds_handler.py` — offer collection and the inner/full-outer joins
  (`_collect_all_offers`, `inner_join_feeds`, `full_outer_join_feeds`), and the
  per-category aggregation with recursive rollup (`get_offers_report`);
* `handler/feeds_save.py` — XML validation (`_validate_xml`) and the batch save
  (`_process_single_feed`, `save_xml`), with network fetch, text decoding and
  well-formedness checking abstracted as oracle parameters.

Python dicts are modelled as association lists preserving insertion order,
with overwrite-in-place update semantics.
-/

namespace EaptekaFeed

section

attribute [local semireducible] Rat.mul Rat.add Rat.inv Rat.sub

/-! ## Statistics engine: `handler/calculation.py` over ℚ -/

/-- Sorting used by `np.quantile` (ascending; stability is irrelevant for values). -/
def sortQ (data : List ℚ) : List ℚ := data.insertionSort (· ≤ ·)

/-- `np.quantile(array, q)` with the default linear interpolation method:
sort the data, take `h = q * (n - 1)`, and interpolate between the values at
positions `⌊h⌋` and `⌊h⌋ + 1` (clamped to the last index). -/
def quantileQ (data : List ℚ) (q : ℚ) : ℚ :=
  let s := sortQ data
  let n := s.length
  let h : ℚ := q * ((n : ℚ) - 1)
  let i : ℕ := ⌊h⌋₊
  let lo := s.getD i 0
  let hi := s.getD (min (i + 1) (n - 1)) 0
  lo + (h - (i : ℚ)) * (hi - lo)

/-- `Q1 - 1.5 * IQR`, the lower admissible bound of `calc_quantile`. -/
def lowerFence (data : List ℚ) : ℚ :=
  quantileQ data (1/4) - 3/2 * (quantileQ data (3/4) - quantileQ data (1/4))

/-- `Q3 + 1.5 * IQR`, the upper admissible bound of `calc_quantile`. -/
def upperFence (data : List ℚ) : ℚ :=
  quantileQ data (3/4) + 3/2 * (quantileQ data (3/4) - quantileQ data (1/4))

/-- `calc_quantile`: keep exactly the values inside the inclusive band
`[Q1 - 1.5*IQR, Q3 + 1.5*IQR]`, preserving input order (numpy boolean mask). -/
def calc_quantile (data : List ℚ) : List ℚ :=
  data.filter (fun x => decide (lowerFence data ≤ x ∧ x ≤ upperFence data))

/-- Python `min` on a list of numbers (the empty case raises in Python and is
never reached by the callers; we return `0` there). -/
def listMin (l : List ℚ) : ℚ :=
  match l with
  | [] => 0
  | x :: xs => xs.foldl min x

/-- Python `max` on a list of numbers (empty case as in `listMin`). -/
def listMax (l : List ℚ) : ℚ :=
  match l with
  | [] => 0
  | x :: xs => xs.foldl max x

/-- `np.median` = linear-interpolation quantile at 1/2 (mean of the two middle
values for even length). -/
def medianQ (l : List ℚ) : ℚ := quantileQ l (1/2)

/-- Python3 `round(y)`: round half to even, as an integer. -/
def roundHalfEven (y : ℚ) : ℤ :=
  let f := ⌊y⌋
  let r := y - (f : ℚ)
  if r < 1/2 then f
  else if 1/2 < r then f + 1
  else if f % 2 = 0 then f else f + 1

/-- Python `round(x, 2)` (DECIMAL_ROUNDING = 2). -/
def round2 (x : ℚ) : ℚ := (roundHalfEven (x * 100) : ℚ) / 100

/-- `clear_min`: minimum of the IQR-filtered data. -/
def clear_min (data : List ℚ) : ℚ := listMin (calc_quantile data)

/-- `clear_max`: maximum of the IQR-filtered data. -/
def clear_max (data : List ℚ) : ℚ := listMax (calc_quantile data)

/-- `clear_median`: median of the IQR-filtered data (no rounding in the source). -/
def clear_median (data : List ℚ) : ℚ := medianQ (calc_quantile data)

/-- `clear_avg`: mean of the IQR-filtered data, rounded to 2 decimals. -/
def clear_avg (data : List ℚ) : ℚ :=
  round2 ((calc_quantile data).sum / ((calc_quantile data).length : ℚ))

/-! ## Data model: documents, offers, categories -/

/-- One `<offer>` element. `offerId` is the `id` attribute, with `""` standing for
a missing or empty id (both falsy in the Python truthiness tests). `categoryId`
and `price` are the child texts, `none` for missing-or-empty. `payload`
distinguishes physically distinct offer elements. -/
structure Offer where
  offerId : String
  categoryId : Option String
  price : Option ℚ
  payload : ℕ
deriving DecidableEq

/-- One `<category>` element: `id` and `parentId` attributes, text `name`. -/
structure Category where
  id : String
  parentId : Option String
  name : String
deriving DecidableEq

/-- One parsed feed document. -/
structure FeedDoc where
  categories : List Category
  offers : List Offer
deriving DecidableEq

/-! ## Python dicts as insertion-ordered association lists -/

/-- Dict lookup: first (and, with unique keys, only) binding of `k`. -/
def alGet {β : Type _} : List (String × β) → String → Option β
  | [], _ => none
  | p :: rest, k => if p.1 = k then some p.2 else alGet rest k

/-- Dict assignment: overwrite in place if the key is present (its insertion
position is preserved), otherwise append at the end — exactly Python semantics. -/
def alSet {β : Type _} : List (String × β) → String → β → List (String × β)
  | [], k, v => [(k, v)]
  | p :: rest, k, v => if p.1 = k then (k, v) :: rest else p :: alSet rest k v

/-- The keys of a dict, in insertion order. -/
def alKeys {β : Type _} (m : List (String × β)) : List String := m.map Prod.fst

/-- `defaultdict(int)` increment: `counts[k] += 1`. -/
def alBump (m : List (String × ℕ)) (k : String) : List (String × ℕ) :=
  alSet m k ((alGet m k).getD 0 + 1)

/-! ## JoinEngine: `_collect_all_offers`, `inner_join_feeds`, `full_outer_join_feeds` -/

/-- One step of the offer scan: an offer with a truthy id bumps its occurrence
count and overwrites the stored representative. -/
def collectStep (acc : List (String × ℕ) × List (String × Offer)) (o : Offer) :
    List (String × ℕ) × List (String × Offer) :=
  if o.offerId ≠ "" then (alBump acc.1 o.offerId, alSet acc.2 o.offerId o) else acc

/-- `_collect_all_offers`: scan the documents in the supplied order, and inside
each document its offers in order, building `offer_counts` and `all_offers`. -/
def collect_all_offers (docs : List FeedDoc) :
    List (String × ℕ) × List (String × Offer) :=
  docs.foldl (fun acc d => d.offers.foldl collectStep acc) ([], [])

/-- The number of occurrences of id `i` in one offer list (offers with a truthy
id only). -/
def occList (l : List Offer) (i : String) : ℕ :=
  (l.filter (fun o => decide (o.offerId = i ∧ o.offerId ≠ ""))).length

/-- The number of occurrences of id `i` across all documents — the number of
increments `offer_counts[i]` receives. -/
def occurrenceCount (docs : List FeedDoc) (i : String) : ℕ :=
  occList (docs.flatMap (fun d => d.offers)) i

/-- The value a `defaultdict(int)` entry holds after `n` more increments on top
of an optional previous value (`none` = never incremented). -/
def optCount : Option ℕ → ℕ → Option ℕ
  | some c, n => some (c + n)
  | none, n => if n = 0 then none else some n

/-- The two errors `_super_feed` can raise before any join result exists: the
`IndexError` from `file_names[0]` on an empty file list, and the
`StructureXMLError` raised when the first feed's tree has no `.//offers`
container. -/
inductive JoinErr where
  | indexError
  | structureXML
deriving DecidableEq

/-- `_super_feed`: build the output template from the FIRST file — indexing
`file_names[0]` raises `IndexError` when there are no files — then locate its
`.//offers` container, raising `StructureXMLError` when it is absent. Whether
the container tag exists is not visible in `FeedDoc` (which only records the
`<offer>` elements found), so it is supplied as the oracle `hasOffersTag`. -/
def super_feed (hasOffersTag : FeedDoc → Bool) : List FeedDoc → Except JoinErr Unit
  | [] => Except.error JoinErr.indexError
  | d :: _ =>
    if hasOffersTag d then Except.ok () else Except.error JoinErr.structureXML

/-- The offers the `inner_join_feeds` loop appends to the fresh template: every
stored representative whose occurrence count equals the number of documents. -/
def inner_join_offers (docs : List FeedDoc) : List Offer :=
  (collect_all_offers docs).1.filterMap
    (fun p => if p.2 = docs.length then alGet (collect_all_offers docs).2 p.1 else none)

/-- `inner_join_feeds`: collect counts and representatives, acquire the
super-feed template (which can raise before any join result exists), then
append every offer occurring in all documents. -/
def inner_join_feeds (hasOffersTag : FeedDoc → Bool) (docs : List FeedDoc) :
    Except JoinErr (List Offer) :=
  match super_feed hasOffersTag docs with
  | Except.error e => Except.error e
  | Except.ok _ => Except.ok (inner_join_offers docs)

/-- `full_outer_join_feeds` (the offers appended to the fresh template): every
stored representative, one per distinct id, in first-insertion order. -/
def full_outer_join_feeds (docs : List FeedDoc) : List Offer :=
  (collect_all_offers docs).2.map Prod.snd

/-- The last offer carrying id `i` in the whole scan order (documents in the
supplied order, offers in document order). -/
def lastOfferWith (docs : List FeedDoc) (i : String) : Option Offer :=
  ((docs.flatMap (fun d => d.offers)).filter (fun o => o.offerId = i)).getLast?

/-- Whether a document contains an offer with id `i`. -/
def hasOfferId (d : FeedDoc) (i : String) : Bool :=
  d.offers.any (fun o => o.offerId == i)

/-! ## CategoryAggregator: `get_offers_report` internals -/

/-- The per-category mutable record inside `get_offers_report` (`category_data`
values): `prices`, `category_name`, `offers_count`. -/
structure CatData where
  prices : List ℚ
  category_name : String
  offers_count : ℕ
deriving DecidableEq

/-- The `all_categories` dict: id ↦ `parentId`, built by scanning the declared
categories in order (later duplicate ids overwrite earlier ones). -/
def buildAllCategories (cats : List Category) : List (String × Option String) :=
  cats.foldl (fun m c => alSet m c.id c.parentId) []

/-- The initial `category_data` dict from the category scan: one fresh record
per declared category (empty prices, declared name, zero count). -/
def buildCategoryData (cats : List Category) : List (String × CatData) :=
  cats.foldl (fun m c => alSet m c.id ⟨[], c.name, 0⟩) []

/-- The offer scan: each offer with truthy `categoryId` and `price` appends its
price and bumps the count, creating an ad-hoc empty-named record if the
category id is undeclared. -/
def addOfferData (m0 : List (String × CatData)) (offers : List Offer) :
    List (String × CatData) :=
  offers.foldl (fun m o =>
    match o.categoryId, o.price with
    | some cid, some p =>
      let cd := (alGet m cid).getD ⟨[], "", 0⟩
      alSet m cid ⟨cd.prices ++ [p], cd.category_name, cd.offers_count + 1⟩
    | _, _ => m) m0

/-- The children of `cid` in `all_categories` iteration order: the ids whose
stored parent is `cid`. -/
def childrenOf (amap : List (String × Option String)) (cid : String) : List String :=
  (amap.filter (fun p => decide (p.2 = some cid))).map Prod.fst

/-- Sequential recursion over a sibling list for `aggregate_data`: thread the
mutated `category_data`, concatenating child prices, counts and visit traces. -/
def aggKids
    (f : List (String × CatData) → String →
      Option (List ℚ × ℕ × List (String × CatData) × List String)) :
    List (String × CatData) → List String →
      Option (List ℚ × ℕ × List (String × CatData) × List String)
  | m, [] => some ([], 0, m, [])
  | m, c :: rest =>
    match f m c with
    | none => none
    | some (ps, cnt, m2, tr) =>
      match aggKids f m2 rest with
      | none => none
      | some (ps2, cnt2, m3, tr2) => some (ps ++ ps2, cnt + cnt2, m3, tr ++ tr2)

/-- `aggregate_data(category_id)`: read the node's current record, recursively
aggregate every child (any id whose stored parent equals this id), write the
concatenated prices and summed count back into `category_data`, and return them.
The Python recursion is unbounded; here it is fuel-indexed, `none` modelling a
crash (unbounded recursion or missing key), and the visited ids are returned as
an instrumentation trace (head = current node, then the children in order). -/
def aggregate_data (amap : List (String × Option String)) :
    ℕ → List (String × CatData) → String →
      Option (List ℚ × ℕ × List (String × CatData) × List String)
  | 0, _, _ => none
  | fuel + 1, m, cid =>
    match alGet m cid with
    | none => none
    | some cd =>
      match aggKids (aggregate_data amap fuel) m (childrenOf amap cid) with
      | none => none
      | some (cps, ccnt, m2, tr) =>
        some (cd.prices ++ cps, cd.offers_count + ccnt,
          alSet m2 cid ⟨cd.prices ++ cps, cd.category_name, cd.offers_count + ccnt⟩,
          cid :: tr)

/-- `root_categories`: the ids whose stored parent is `None`, in order. -/
def rootCategories (amap : List (String × Option String)) : List String :=
  (amap.filter (fun p => decide (p.2 = none))).map Prod.fst

/-- Fuel sufficient for the rollup of any input (proved below): one more than
the number of distinct declared categories. -/
def rollupFuel (amap : List (String × Option String)) : ℕ := amap.length + 1

/-- The root loop `for root_id in root_categories: aggregate_data(root_id)`,
threading `category_data` and collecting the visit trace. -/
def aggRoots (amap : List (String × Option String)) :
    List String → List (String × CatData) →
      Option (List (String × CatData) × List String)
  | [], m => some (m, [])
  | r :: rest, m =>
    match aggregate_data amap (rollupFuel amap) m r with
    | none => none
    | some (_, _, m2, tr) =>
      match aggRoots amap rest m2 with
      | none => none
      | some (m3, tr2) => some (m3, tr ++ tr2)

/-- The whole rollup phase of `get_offers_report`. -/
def aggregateAll (amap : List (String × Option String))
    (m : List (String × CatData)) :
    Option (List (String × CatData) × List String) :=
  aggRoots amap (rootCategories amap) m

/-! ### Ancestor chains, reachability and subtrees (specification side) -/

/-- `j`-fold parent step: follow the stored parent pointer `j` times; `none` if
a node without a stored parent (or an undeclared id) is hit on the way. -/
def parentIter (amap : List (String × Option String)) : ℕ → String → Option String
  | 0, x => some x
  | j + 1, x =>
    match alGet amap x with
    | some (some p) => parentIter amap j p
    | _ => none

/-- Fuel-bounded distance to a root: `some k` iff following parents from `x`
reaches, within the fuel, a declared category whose stored parent is `None`. -/
def distToRoot (amap : List (String × Option String)) : ℕ → String → Option ℕ
  | 0, _ => none
  | f + 1, x =>
    match alGet amap x with
    | none => none
    | some none => some 0
    | some (some p) => (distToRoot amap f p).map (· + 1)

/-- `x`'s ancestor chain terminates at a root (`parent_id = null`). -/
def reachesRoot (amap : List (String × Option String)) (x : String) : Bool :=
  (distToRoot amap (rollupFuel amap) x).isSome

/-- Whether the root distance of `d` is defined and exceeds `k` (used as the
termination measure of the rollup). -/
def distGT (amap : List (String × Option String)) (k : ℕ) (d : String) : Bool :=
  match distToRoot amap (rollupFuel amap) d with
  | some kd => decide (k < kd)
  | none => false

/-- `d` lies in the subtree of `c`: some parent chain from `d` passes through
`c` (the bound suffices because any such chain has no repeated node). -/
def isDescOf (amap : List (String × Option String)) (d c : String) : Bool :=
  (List.range (rollupFuel amap)).any (fun j => parentIter amap j d == some c)

/-- The declared categories in the subtree of `c`, as a list of ids. -/
def subtreeList (amap : List (String × Option String)) (c : String) : List String :=
  (alKeys amap).filter (fun d => isDescOf amap d c)

/-- The declared categories in the subtree of `c`, as a finite set. -/
def subtreeF (amap : List (String × Option String)) (c : String) : Finset String :=
  (subtreeList amap c).toFinset

/-- The multiset of prices stored for `d` in a `category_data` dict. -/
def directPrices (m : List (String × CatData)) (d : String) : Multiset ℚ :=
  match alGet m d with
  | some cd => (cd.prices : Multiset ℚ)
  | none => 0

/-! ## ReportAssembler: the rows built at the end of `get_offers_report` -/

/-- One report row (fields as in the Python dict literal). -/
structure ReportRow where
  date : String
  feed_name : String
  category_name : String
  category_id : String
  parent_id : Option String
  count_offers : ℕ
  min_price : ℚ
  clear_min_price : ℚ
  max_price : ℚ
  clear_max_price : ℚ
  avg_price : ℚ
  clear_avg_price : ℚ
  median_price : ℚ
  clear_median_price : ℚ
deriving DecidableEq

/-- The row built for one `category_data` entry: guarded statistics (zero for an
empty price list), `parent_id` via `all_categories.get` (`None` when absent). -/
def mkReportRow (amap : List (String × Option String)) (dateStr fileName : String)
    (cid : String) (cd : CatData) : ReportRow :=
  { date := dateStr
    feed_name := fileName
    category_name := cd.category_name
    category_id := cid
    parent_id := (alGet amap cid).getD none
    count_offers := cd.offers_count
    min_price := if cd.prices = [] then 0 else listMin cd.prices
    clear_min_price := if cd.prices = [] then 0 else clear_min cd.prices
    max_price := if cd.prices = [] then 0 else listMax cd.prices
    clear_max_price := if cd.prices = [] then 0 else clear_max cd.prices
    avg_price := if cd.prices = [] then 0
      else round2 (cd.prices.sum / (cd.prices.length : ℚ))
    clear_avg_price := if cd.prices = [] then 0 else clear_avg cd.prices
    median_price := if cd.prices = [] then 0 else round2 (medianQ cd.prices)
    clear_median_price := if cd.prices = [] then 0 else clear_median cd.prices }

/-- `get_offers_report` for one feed document: skip it (no rows) when it has no
categories or no offers; otherwise build `all_categories` and `category_data`,
roll up from the roots, and emit one row per `category_data` entry in insertion
order. `none` models a crash of the rollup (shown below never to happen). -/
def get_offers_report (doc : FeedDoc) (dateStr fileName : String) :
    Option (List ReportRow) :=
  if doc.categories = [] ∨ doc.offers = [] then some []
  else
    let amap := buildAllCategories doc.categories
    let data0 := addOfferData (buildCategoryData doc.categories) doc.offers
    match aggregateAll amap data0 with
    | none => none
    | some (m, _) => some (m.map (fun p => mkReportRow amap dateStr fileName p.1 p.2))

/-! ## Fetcher validation: `_validate_xml` over raw bytes

Text decoding (`bytes.decode`) and well-formedness parsing (`ET.fromstring`)
are external library calls, abstracted as oracle parameters `decode` (per
encoding name, `none` = `UnicodeDecodeError`) and `wellFormed`. The encoding
detection over the first 100 bytes is modelled concretely. -/

/-- The outcome of `_validate_xml`: the two exception kinds and success. -/
inductive XmlCheck where
  | emptyXml
  | invalidXml
  | parseFailed
  | ok (content : String) (encoding : String)
deriving DecidableEq

/-- The bytes removed by `bytes.strip()`: space, `\t`, `\n`, `\r`, `\x0b`, `\x0c`. -/
def isSpaceByte (b : ℕ) : Bool :=
  b == 32 || b == 9 || b == 10 || b == 13 || b == 11 || b == 12

/-- `xml_content[:100].decode('ascii', errors='ignore')`: first 100 bytes with
non-ASCII bytes dropped. -/
def asciiDeclaration (body : List ℕ) : List Char :=
  (body.take 100).filterMap (fun b => if b < 128 then some (Char.ofNat b) else none)

/-- A quote character of the pattern `['\"]`. -/
def isQuoteChar (c : Char) : Bool := c == '\'' || c == '"'

/-- The literal `encoding=` of the detection pattern. -/
def encodingTag : List Char := "encoding=".toList

/-- Whether `pat` occurs at the head of `s`. -/
def matchesAt : List Char → List Char → Bool
  | [], _ => true
  | _ :: _, [] => false
  | c :: cs, d :: ds => c == d && matchesAt cs ds

/-- Match `['\"]([^'\"]+)['\"]` at the head of `s`, returning the group. -/
def encValueAt (s : List Char) : Option (List Char) :=
  match s with
  | q :: rest =>
    if isQuoteChar q then
      let v := rest.takeWhile (fun c => !isQuoteChar c)
      match rest.drop v.length with
      | c :: _ => if isQuoteChar c && !v.isEmpty then some v else none
      | [] => none
    else none
  | [] => none

/-- `re.search(r"encoding=['\"]([^'\"]+)['\"]", s)`: the group of the leftmost
position where the whole pattern matches. -/
def scanEncoding : List Char → Option (List Char)
  | [] => none
  | c :: rest =>
    match (if matchesAt encodingTag (c :: rest)
           then encValueAt ((c :: rest).drop encodingTag.length)
           else none) with
    | some v => some v
    | none => scanEncoding rest

/-- The encoding `_validate_xml` settles on before decoding: the lowercased
declared encoding from the document header when the pattern matches, `utf-8`
otherwise. -/
def detectedEncoding (body : List ℕ) : String :=
  match scanEncoding (asciiDeclaration body) with
  | some v => String.mk (v.map Char.toLower)
  | none => "utf-8"

/-- `_validate_xml`: reject whitespace-only bodies; decode with the detected
encoding, falling back to `utf-8` on failure; reject if both fail; reject if
the decoded text is not well-formed; otherwise return content and encoding. -/
def validate_xml (decode : String → Option String) (wellFormed : String → Bool)
    (body : List ℕ) : XmlCheck :=
  if body.all isSpaceByte then .emptyXml
  else
    match decode (detectedEncoding body) with
    | some content =>
      if wellFormed content then .ok content (detectedEncoding body) else .parseFailed
    | none =>
      match decode "utf-8" with
      | some content => if wellFormed content then .ok content "utf-8" else .parseFailed
      | none => .invalidXml

/-! ## Fetcher batch: `_process_single_feed` and `save_xml`

The network is abstracted as an oracle `fetch` returning either the body bytes,
a network failure (`requests.RequestException`, retries already exhausted), or
any other exception. -/

/-- What retrieving one source can produce. -/
inductive FetchErr where
  | network
  | other
deriving DecidableEq

/-- `feed.split('/')[-1]`. -/
def getFileName (feed : String) : String := (feed.splitOn "/").getLastD ""

/-- `_process_single_feed`: network failures and validation failures are caught
and reported as `False` with no file written; any other exception propagates
(`Except.error`); on success the validated file is written and `True` returned. -/
def process_single_feed (fetch : String → Except FetchErr (List ℕ))
    (decode : String → List ℕ → Option String) (wellFormed : String → Bool)
    (feed : String) : Except Unit (Bool × Option (String × String)) :=
  match fetch feed with
  | .error .network => .ok (false, none)
  | .error .other => .error ()
  | .ok body =>
    match validate_xml (fun e => decode e body) wellFormed body with
    | .ok content _ => .ok (true, some (getFileName feed, content))
    | _ => .ok (false, none)

/-- Whether one source settles as a success (used for the reported count). -/
def feedSucceeds (fetch : String → Except FetchErr (List ℕ))
    (decode : String → List ℕ → Option String) (wellFormed : String → Bool)
    (feed : String) : Bool :=
  match process_single_feed fetch decode wellFormed feed with
  | .ok (true, _) => true
  | _ => false

/-- `save_xml`: process every source (worker completion order is irrelevant for
the counters; exceptions from workers are caught and logged at the batch level)
and report `(saved_files, total_files)`. -/
def save_xml (fetch : String → Except FetchErr (List ℕ))
    (decode : String → List ℕ → Option String) (wellFormed : String → Bool)
    (feeds : List String) : ℕ × ℕ :=
  (feeds.countP (feedSucceeds fetch decode wellFormed), feeds.length)

/-- Keys are pairwise distinct (invariant of every dict built by `alSet`). -/
def NodupKeys {β : Type _} (m : List (String × β)) : Prop := (alKeys m).Nodup

/-! ## Concrete fixtures used in the closed-form parts of the development -/

/-- A 3-level chain of categories: root `1`, child `2`, grandchild `3`. -/
def cats1 : List Category :=
  [⟨"1", none, "Root"⟩, ⟨"2", some "1", "Child"⟩, ⟨"3", some "2", "Grand"⟩]

/-- One offer per level of the chain, with prices 100, 200 and 300. -/
def offers1 : List Offer :=
  [⟨"o1", some "1", some 100, 0⟩, ⟨"o2", some "2", some 200, 0⟩,
   ⟨"o3", some "3", some 300, 0⟩]

/-- A category list with a 2-cycle `a ↔ b` beside an honest root `r`. -/
def cats9 : List Category :=
  [⟨"a", some "b", "A"⟩, ⟨"b", some "a", "B"⟩, ⟨"r", none, "R"⟩]

/-- One offer per category of the cyclic fixture. -/
def offers9 : List Offer :=
  [⟨"oa", some "a", some 5, 0⟩, ⟨"ob", some "b", some 7, 0⟩,
   ⟨"or", some "r", some 9, 0⟩]

/-- A document with one declared root category and one offer referencing the
undeclared category id `2` (forcing an ad-hoc aggregate). -/
def doc6 : FeedDoc :=
  ⟨[⟨"1", none, "Root"⟩], [⟨"o1", some "2", some 10, 0⟩]⟩

/-- A document with a declared category but no offers: the report loop skips
it entirely. -/
def doc6skip : FeedDoc :=
  ⟨[⟨"1", none, "Root"⟩], []⟩

/-! ## Theorems -/

/-! ### List minimum / maximum helpers -/

lemma foldl_min_le_init (xs : List ℚ) (a : ℚ) : xs.foldl min a ≤ a := by
  induction xs generalizing a with
  | nil => simp
  | cons x xs ih => exact (ih (min a x)).trans (min_le_left a x)

lemma foldl_min_le_mem {xs : List ℚ} {x : ℚ} (hx : x ∈ xs) : ∀ a, xs.foldl min a ≤ x := by
  induction xs with
  | nil => cases hx
  | cons y ys ih =>
    intro a
    rcases List.mem_cons.mp hx with h | h
    · subst h
      exact (foldl_min_le_init ys _).trans (min_le_right a x)
    · exact ih h _

lemma foldl_min_mem (xs : List ℚ) (a : ℚ) : xs.foldl min a = a ∨ xs.foldl min a ∈ xs := by
  induction xs generalizing a with
  | nil => exact Or.inl rfl
  | cons y ys ih =>
    rcases ih (min a y) with h | h
    · rw [List.foldl_cons, h]
      rcases min_choice a y with h2 | h2
      · exact Or.inl h2
      · right; rw [h2]; exact List.mem_cons_self y ys
    · exact Or.inr (List.mem_cons_of_mem _ h)

lemma listMin_le {l : List ℚ} {x : ℚ} (hx : x ∈ l) : listMin l ≤ x := by
  cases l with
  | nil => cases hx
  | cons y ys =>
    simp only [listMin]
    rcases List.mem_cons.mp hx with h | h
    · rw [h]; exact foldl_min_le_init ys y
    · exact foldl_min_le_mem h y

lemma listMin_mem {l : List ℚ} (h : l ≠ []) : listMin l ∈ l := by
  cases l with
  | nil => exact absurd rfl h
  | cons y ys =>
    simp only [listMin]
    rcases foldl_min_mem ys y with h2 | h2
    · rw [h2]; exact List.mem_cons_self y ys
    · exact List.mem_cons_of_mem _ h2

lemma init_le_foldl_max (xs : List ℚ) (a : ℚ) : a ≤ xs.foldl max a := by
  induction xs generalizing a with
  | nil => simp
  | cons x xs ih => exact (le_max_left a x).trans (ih (max a x))

lemma mem_le_foldl_max {xs : List ℚ} {x : ℚ} (hx : x ∈ xs) : ∀ a, x ≤ xs.foldl max a := by
  induction xs with
  | nil => cases hx
  | cons y ys ih =>
    intro a
    rcases List.mem_cons.mp hx with h | h
    · subst h
      exact (le_max_right a x).trans (init_le_foldl_max ys _)
    · exact ih h _

lemma foldl_max_mem (xs : List ℚ) (a : ℚ) : xs.foldl max a = a ∨ xs.foldl max a ∈ xs := by
  induction xs generalizing a with
  | nil => exact Or.inl rfl
  | cons y ys ih =>
    rcases ih (max a y) with h | h
    · rw [List.foldl_cons, h]
      rcases max_choice a y with h2 | h2
      · exact Or.inl h2
      · right; rw [h2]; exact List.mem_cons_self y ys
    · exact Or.inr (List.mem_cons_of_mem _ h)

lemma le_listMax {l : List ℚ} {x : ℚ} (hx : x ∈ l) : x ≤ listMax l := by
  cases l with
  | nil => cases hx
  | cons y ys =>
    simp only [listMax]
    rcases List.mem_cons.mp hx with h | h
    · rw [h]; exact init_le_foldl_max ys y
    · exact mem_le_foldl_max h y

lemma listMax_mem {l : List ℚ} (h : l ≠ []) : listMax l ∈ l := by
  cases l with
  | nil => exact absurd rfl h
  | cons y ys =>
    simp only [listMax]
    rcases foldl_max_mem ys y with h2 | h2
    · rw [h2]; exact List.mem_cons_self y ys
    · exact List.mem_cons_of_mem _ h2

/-! ### Quantile lemmas -/

lemma length_sortQ (data : List ℚ) : (sortQ data).length = data.length :=
  (List.perm_insertionSort _ data).length_eq

lemma sorted_sortQ (data : List ℚ) : (sortQ data).Sorted (· ≤ ·) :=
  List.sorted_insertionSort _ data

lemma mem_sortQ {data : List ℚ} {x : ℚ} : x ∈ sortQ data ↔ x ∈ data :=
  (List.perm_insertionSort _ data).mem_iff

lemma sortQ_getD_mono (data : List ℚ) {i j : ℕ} (hij : i ≤ j)
    (hj : j < (sortQ data).length) :
    (sortQ data).getD i 0 ≤ (sortQ data).getD j 0 := by
  have hi : i < (sortQ data).length := lt_of_le_of_lt hij hj
  rw [List.getD_eq_getElem _ _ hi, List.getD_eq_getElem _ _ hj]
  have := (sorted_sortQ data).rel_get_of_le (a := ⟨i, hi⟩) (b := ⟨j, hj⟩) hij
  simpa using this

lemma sortQ_getD_mem (data : List ℚ) {i : ℕ} (hi : i < (sortQ data).length) :
    (sortQ data).getD i 0 ∈ data := by
  rw [List.getD_eq_getElem _ _ hi]
  exact mem_sortQ.mp (List.getElem_mem hi)

lemma quantileQ_def (data : List ℚ) (q : ℚ) : quantileQ data q =
    (sortQ data).getD ⌊q * (((sortQ data).length : ℚ) - 1)⌋₊ 0
    + (q * (((sortQ data).length : ℚ) - 1) - (⌊q * (((sortQ data).length : ℚ) - 1)⌋₊ : ℚ))
      * ((sortQ data).getD
          (min (⌊q * (((sortQ data).length : ℚ) - 1)⌋₊ + 1) ((sortQ data).length - 1)) 0
        - (sortQ data).getD ⌊q * (((sortQ data).length : ℚ) - 1)⌋₊ 0) := rfl

lemma quantileQ_between (data : List ℚ) (hne : data ≠ []) {q : ℚ}
    (hq0 : 0 ≤ q) (hq1 : q ≤ 1) :
    (sortQ data).getD ⌊q * (((sortQ data).length : ℚ) - 1)⌋₊ 0 ≤ quantileQ data q ∧
    quantileQ data q ≤ (sortQ data).getD
      (min (⌊q * (((sortQ data).length : ℚ) - 1)⌋₊ + 1) ((sortQ data).length - 1)) 0 := by
  have hn : (sortQ data).length ≠ 0 := by
    rw [length_sortQ]
    simpa [List.length_eq_zero] using hne
  have hn1 : 1 ≤ (sortQ data).length := Nat.one_le_iff_ne_zero.mpr hn
  have hm : (0:ℚ) ≤ ((sortQ data).length : ℚ) - 1 := by
    have : (1:ℚ) ≤ ((sortQ data).length : ℚ) := by exact_mod_cast hn1
    linarith
  have hh0 : 0 ≤ q * (((sortQ data).length : ℚ) - 1) := mul_nonneg hq0 hm
  have hhle : q * (((sortQ data).length : ℚ) - 1) ≤ ((sortQ data).length : ℚ) - 1 := by
    nlinarith
  have hcast : ((((sortQ data).length - 1 : ℕ)) : ℚ) = ((sortQ data).length : ℚ) - 1 := by
    rw [Nat.cast_sub hn1]; simp
  have hi_le : ⌊q * (((sortQ data).length : ℚ) - 1)⌋₊ ≤ (sortQ data).length - 1 := by
    have h2 : q * (((sortQ data).length : ℚ) - 1) ≤ (((sortQ data).length - 1 : ℕ) : ℚ) := by
      rw [hcast]; exact hhle
    calc ⌊q * (((sortQ data).length : ℚ) - 1)⌋₊
        ≤ ⌊(((sortQ data).length - 1 : ℕ) : ℚ)⌋₊ := Nat.floor_le_floor h2
      _ = (sortQ data).length - 1 := Nat.floor_natCast _
  have hminlt : min (⌊q * (((sortQ data).length : ℚ) - 1)⌋₊ + 1) ((sortQ data).length - 1)
      < (sortQ data).length := by omega
  have hle_min : ⌊q * (((sortQ data).length : ℚ) - 1)⌋₊
      ≤ min (⌊q * (((sortQ data).length : ℚ) - 1)⌋₊ + 1) ((sortQ data).length - 1) := by
    omega
  have hlohi := sortQ_getD_mono data hle_min hminlt
  have hfrac0 : 0 ≤ q * (((sortQ data).length : ℚ) - 1)
      - (⌊q * (((sortQ data).length : ℚ) - 1)⌋₊ : ℚ) :=
    sub_nonneg.mpr (Nat.floor_le hh0)
  have hfrac1 : q * (((sortQ data).length : ℚ) - 1)
      - (⌊q * (((sortQ data).length : ℚ) - 1)⌋₊ : ℚ) ≤ 1 := by
    have := Nat.lt_floor_add_one (q * (((sortQ data).length : ℚ) - 1))
    linarith
  constructor
  · rw [quantileQ_def]
    nlinarith [mul_nonneg hfrac0 (sub_nonneg.mpr hlohi)]
  · rw [quantileQ_def]
    nlinarith [mul_nonneg (sub_nonneg.mpr hfrac1) (sub_nonneg.mpr hlohi)]

lemma floor_q4_index (data : List ℚ) (hne : data ≠ []) :
    ⌊(1/4 : ℚ) * (((sortQ data).length : ℚ) - 1)⌋₊ = (data.length - 1) / 4 := by
  have h1 : 1 ≤ data.length := List.length_pos.mpr hne
  have hcast : ((sortQ data).length : ℚ) - 1 = ((data.length - 1 : ℕ) : ℚ) := by
    rw [length_sortQ, Nat.cast_sub h1]; simp
  rw [hcast, show (1/4 : ℚ) * ((data.length - 1 : ℕ) : ℚ)
      = ((data.length - 1 : ℕ) : ℚ) / (4 : ℕ) by push_cast; ring,
    Nat.floor_div_nat, Nat.floor_natCast]

lemma floor_3q4_index (data : List ℚ) (hne : data ≠ []) :
    ⌊(3/4 : ℚ) * (((sortQ data).length : ℚ) - 1)⌋₊ = 3 * (data.length - 1) / 4 := by
  have h1 : 1 ≤ data.length := List.length_pos.mpr hne
  have hcast : ((sortQ data).length : ℚ) - 1 = ((data.length - 1 : ℕ) : ℚ) := by
    rw [length_sortQ, Nat.cast_sub h1]; simp
  rw [hcast, show (3/4 : ℚ) * ((data.length - 1 : ℕ) : ℚ)
      = ((3 * (data.length - 1) : ℕ) : ℚ) / (4 : ℕ) by push_cast; ring,
    Nat.floor_div_nat, Nat.floor_natCast]

lemma quantileQ_singleton (a : ℚ) (q : ℚ) : quantileQ [a] q = a := by
  have hs : sortQ [a] = [a] := rfl
  rw [quantileQ_def, hs]
  norm_num

lemma quantileQ_pair (data : List ℚ) {c d : ℚ} (hs : sortQ data = [c, d]) :
    quantileQ data (1/4) = c + 1/4 * (d - c) ∧
    quantileQ data (3/4) = c + 3/4 * (d - c) := by
  constructor
  · rw [quantileQ_def, hs]
    norm_num [Nat.floor_eq_zero.mpr]
  · rw [quantileQ_def, hs]
    norm_num [Nat.floor_eq_zero.mpr]

lemma iqr_nonneg (data : List ℚ) (hne : data ≠ []) :
    quantileQ data (1/4) ≤ quantileQ data (3/4) := by
  have h1 : 1 ≤ data.length := List.length_pos.mpr hne
  have hlen : (sortQ data).length = data.length := length_sortQ data
  rcases Nat.lt_or_ge data.length 3 with hsmall | hbig
  · have hcases : data.length = 1 ∨ data.length = 2 := by omega
    rcases hcases with hlen2 | hlen2
    · obtain ⟨a, ha⟩ := List.length_eq_one.mp hlen2
      subst ha
      rw [quantileQ_singleton, quantileQ_singleton]
    · have hlen2' : (sortQ data).length = 2 := by rw [hlen, hlen2]
      obtain ⟨c, d, hcd⟩ := List.length_eq_two.mp hlen2'
      have hcle : c ≤ d := by
        have := sorted_sortQ data
        rw [hcd] at this
        simpa using this
      obtain ⟨h14, h34⟩ := quantileQ_pair data hcd
      rw [h14, h34]; linarith
  · -- at least 3 elements: Q1 ≤ s[min (m/4+1) m] ≤ s[3m/4] ≤ Q3
    have hm2 : 2 ≤ data.length - 1 := by omega
    have hQ1 := (quantileQ_between data hne (q := 1/4) (by norm_num) (by norm_num)).2
    have hQ3 := (quantileQ_between data hne (q := 3/4) (by norm_num) (by norm_num)).1
    rw [floor_q4_index data hne] at hQ1
    rw [floor_3q4_index data hne] at hQ3
    have hmid : (sortQ data).getD
        (min ((data.length - 1) / 4 + 1) ((sortQ data).length - 1)) 0
        ≤ (sortQ data).getD (3 * (data.length - 1) / 4) 0 := by
      apply sortQ_getD_mono
      · omega
      · omega
    exact hQ1.trans (hmid.trans hQ3)

lemma fence_witness (data : List ℚ) (hne : data ≠ []) :
    ∃ x ∈ data, lowerFence data ≤ x ∧ x ≤ upperFence data := by
  have h1 : 1 ≤ data.length := List.length_pos.mpr hne
  have hlen : (sortQ data).length = data.length := length_sortQ data
  have hiqr := iqr_nonneg data hne
  rcases Nat.lt_or_ge data.length 3 with hsmall | hbig
  · have hcases : data.length = 1 ∨ data.length = 2 := by omega
    rcases hcases with hlen2 | hlen2
    · obtain ⟨a, ha⟩ := List.length_eq_one.mp hlen2
      subst ha
      refine ⟨a, by simp, ?_, ?_⟩
      · unfold lowerFence
        rw [quantileQ_singleton, quantileQ_singleton]; linarith
      · unfold upperFence
        rw [quantileQ_singleton, quantileQ_singleton]; linarith
    · have hlen2' : (sortQ data).length = 2 := by rw [hlen, hlen2]
      obtain ⟨c, d, hcd⟩ := List.length_eq_two.mp hlen2'
      have hcle : c ≤ d := by
        have := sorted_sortQ data
        rw [hcd] at this
        simpa using this
      obtain ⟨h14, h34⟩ := quantileQ_pair data hcd
      refine ⟨c, ?_, ?_, ?_⟩
      · have : c ∈ sortQ data := by rw [hcd]; simp
        exact mem_sortQ.mp this
      · unfold lowerFence; rw [h14, h34]; linarith
      · unfold upperFence; rw [h14, h34]; linarith
  · have hm2 : 2 ≤ data.length - 1 := by omega
    have hQ1 := (quantileQ_between data hne (q := 1/4) (by norm_num) (by norm_num)).2
    have hQ3 := (quantileQ_between data hne (q := 3/4) (by norm_num) (by norm_num)).1
    rw [floor_q4_index data hne] at hQ1
    rw [floor_3q4_index data hne] at hQ3
    have hi3lt : 3 * (data.length - 1) / 4 < (sortQ data).length := by omega
    refine ⟨(sortQ data).getD (3 * (data.length - 1) / 4) 0,
      sortQ_getD_mem data hi3lt, ?_, ?_⟩
    · have hmid : (sortQ data).getD
          (min ((data.length - 1) / 4 + 1) ((sortQ data).length - 1)) 0
          ≤ (sortQ data).getD (3 * (data.length - 1) / 4) 0 := by
        apply sortQ_getD_mono
        · omega
        · omega
      unfold lowerFence
      have := hQ1.trans hmid
      linarith
    · unfold upperFence
      linarith

/-! ### Claims C5 and C10 -/

lemma mem_calc_quantile_of {l : List ℚ} {x : ℚ} (hx : x ∈ l)
    (hlo : lowerFence l ≤ x) (hhi : x ≤ upperFence l) : x ∈ calc_quantile l := by
  unfold calc_quantile
  refine List.mem_filter.mpr ⟨hx, ?_⟩
  simp [hlo, hhi]

lemma calc_quantile_subset {l : List ℚ} {x : ℚ} (hx : x ∈ calc_quantile l) : x ∈ l :=
  (List.mem_filter.mp hx).1

lemma calc_quantile_band {l : List ℚ} {x : ℚ} (hx : x ∈ calc_quantile l) :
    lowerFence l ≤ x ∧ x ≤ upperFence l := by
  have := (List.mem_filter.mp hx).2
  simpa using this

lemma calc_quantile_ne_nil {l : List ℚ} (hne : l ≠ []) : calc_quantile l ≠ [] := by
  obtain ⟨x, hx, hlo, hhi⟩ := fence_witness l hne
  exact List.ne_nil_of_mem (mem_calc_quantile_of hx hlo hhi)

/-- Claim C10: for every non-empty input the IQR band `[Q1 - 1.5*IQR, Q3 + 1.5*IQR]`
keeps at least one value, so the filtered sequence is non-empty, `clear_min` and
`clear_max` return actual members of it (no min/max of an empty collection is
taken), and the denominator of `clear_avg` is non-zero. -/
theorem c10_filter_total (l : List ℚ) (hne : l ≠ []) :
    calc_quantile l ≠ [] ∧ ((calc_quantile l).length : ℚ) ≠ 0 ∧
    clear_min l ∈ calc_quantile l ∧ clear_max l ∈ calc_quantile l := by
  have hF := calc_quantile_ne_nil hne
  refine ⟨hF, ?_, listMin_mem hF, listMax_mem hF⟩
  have : (calc_quantile l).length ≠ 0 := by
    simpa [List.length_eq_zero] using hF
  exact_mod_cast this

/-- Witness for C10 at the concrete input `[10, 12, 11, 13, 100]`. -/
theorem c10_filter_total_witness :
    ([(10 : ℚ), 12, 11, 13, 100] ≠ []) ∧
    (calc_quantile [(10 : ℚ), 12, 11, 13, 100] ≠ [] ∧
      ((calc_quantile [(10 : ℚ), 12, 11, 13, 100]).length : ℚ) ≠ 0 ∧
      clear_min [(10 : ℚ), 12, 11, 13, 100] ∈ calc_quantile [(10 : ℚ), 12, 11, 13, 100] ∧
      clear_max [(10 : ℚ), 12, 11, 13, 100] ∈ calc_quantile [(10 : ℚ), 12, 11, 13, 100]) :=
  ⟨by decide, c10_filter_total [10, 12, 11, 13, 100] (by decide)⟩

/-- Claim C5: for every non-empty sequence, `clear_min ≥ min` and
`clear_max ≤ max`, and both are equalities exactly when the IQR fence excludes
no values (the filter returns the sequence unchanged). -/
theorem c5_clear_bounds (l : List ℚ) (hne : l ≠ []) :
    listMin l ≤ clear_min l ∧ clear_max l ≤ listMax l ∧
    ((clear_min l = listMin l ∧ clear_max l = listMax l) ↔ calc_quantile l = l) := by
  have hF := calc_quantile_ne_nil hne
  have hmin_mem : clear_min l ∈ calc_quantile l := listMin_mem hF
  have hmax_mem : clear_max l ∈ calc_quantile l := listMax_mem hF
  refine ⟨listMin_le (calc_quantile_subset hmin_mem),
    le_listMax (calc_quantile_subset hmax_mem), ?_, ?_⟩
  · rintro ⟨h1, h2⟩
    have hminF : listMin l ∈ calc_quantile l := h1 ▸ hmin_mem
    have hmaxF : listMax l ∈ calc_quantile l := h2 ▸ hmax_mem
    have hbmin := calc_quantile_band hminF
    have hbmax := calc_quantile_band hmaxF
    apply List.filter_eq_self.mpr
    intro a ha
    have h3 : lowerFence l ≤ a := hbmin.1.trans (listMin_le ha)
    have h4 : a ≤ upperFence l := (le_listMax ha).trans hbmax.2
    simp [h3, h4]
  · intro hEq
    constructor
    · unfold clear_min
      rw [hEq]
    · unfold clear_max
      rw [hEq]

/-- Witness for C5 at the concrete input `[10, 12, 11, 13, 100]`. -/
theorem c5_clear_bounds_witness :
    ([(10 : ℚ), 12, 11, 13, 100] ≠ []) ∧
    (listMin [(10 : ℚ), 12, 11, 13, 100] ≤ clear_min [(10 : ℚ), 12, 11, 13, 100] ∧
      clear_max [(10 : ℚ), 12, 11, 13, 100] ≤ listMax [(10 : ℚ), 12, 11, 13, 100] ∧
      ((clear_min [(10 : ℚ), 12, 11, 13, 100] = listMin [(10 : ℚ), 12, 11, 13, 100] ∧
        clear_max [(10 : ℚ), 12, 11, 13, 100] = listMax [(10 : ℚ), 12, 11, 13, 100]) ↔
        calc_quantile [(10 : ℚ), 12, 11, 13, 100] = [(10 : ℚ), 12, 11, 13, 100])) :=
  ⟨by decide, c5_clear_bounds [10, 12, 11, 13, 100] (by decide)⟩

/-! ### Association list lemmas -/

lemma alGet_alSet_self {β : Type _} (m : List (String × β)) (k : String) (v : β) :
    alGet (alSet m k v) k = some v := by
  induction m with
  | nil => simp [alGet, alSet]
  | cons p rest ih =>
    by_cases h : p.1 = k
    · simp [alSet, alGet, h]
    · simp [alSet, alGet, h, ih]

lemma alGet_alSet_ne {β : Type _} (m : List (String × β)) {k k' : String} (v : β)
    (h : k' ≠ k) : alGet (alSet m k v) k' = alGet m k' := by
  have h2 : ¬ (k = k') := fun hh => h hh.symm
  induction m with
  | nil => simp [alGet, alSet, h2]
  | cons p rest ih =>
    by_cases hp : p.1 = k
    · simp [alSet, alGet, hp, h2]
    · by_cases hp' : p.1 = k'
      · simp [alSet, alGet, hp, hp', h, h2]
      · simp [alSet, alGet, hp, hp', ih]

lemma alKeys_alSet_mem {β : Type _} (m : List (String × β)) (k : String) (v : β)
    (hmem : k ∈ alKeys m) : alKeys (alSet m k v) = alKeys m := by
  induction m with
  | nil => cases hmem
  | cons p rest ih =>
    by_cases h : p.1 = k
    · simp [alSet, alKeys, h]
    · have hmem' : k ∈ alKeys rest := by
        rcases List.mem_cons.mp hmem with h2 | h2
        · exact absurd h2.symm h
        · exact h2
      simp only [alSet, alKeys, List.map_cons, if_neg h]
      rw [show (alSet rest k v).map Prod.fst = alKeys (alSet rest k v) from rfl, ih hmem']
      rfl

lemma alKeys_alSet_not_mem {β : Type _} (m : List (String × β)) (k : String) (v : β)
    (hmem : k ∉ alKeys m) : alKeys (alSet m k v) = alKeys m ++ [k] := by
  induction m with
  | nil => simp [alSet, alKeys]
  | cons p rest ih =>
    have h : p.1 ≠ k := by
      intro hh
      exact hmem (List.mem_cons.mpr (Or.inl hh.symm))
    have hmem' : k ∉ alKeys rest := fun hh => hmem (List.mem_cons_of_mem _ hh)
    simp only [alSet, alKeys, List.map_cons, if_neg h]
    rw [show (alSet rest k v).map Prod.fst = alKeys (alSet rest k v) from rfl, ih hmem']
    rfl

lemma nodupKeys_alSet {β : Type _} {m : List (String × β)} (hnd : NodupKeys m)
    (k : String) (v : β) : NodupKeys (alSet m k v) := by
  by_cases hmem : k ∈ alKeys m
  · unfold NodupKeys
    rw [alKeys_alSet_mem m k v hmem]
    exact hnd
  · unfold NodupKeys
    rw [alKeys_alSet_not_mem m k v hmem]
    simpa [List.nodup_append] using ⟨hnd, hmem⟩

lemma alGet_isSome_iff {β : Type _} (m : List (String × β)) (k : String) :
    (alGet m k).isSome ↔ k ∈ alKeys m := by
  induction m with
  | nil => simp [alGet, alKeys]
  | cons p rest ih =>
    by_cases h : p.1 = k
    · simp [alGet, alKeys, h]
    · have h' : ¬ k = p.1 := fun hh => h hh.symm
      simp [alGet, alKeys, h, h', ih]

lemma alGet_eq_none_of_not_mem {β : Type _} {m : List (String × β)} {k : String}
    (h : k ∉ alKeys m) : alGet m k = none := by
  by_contra hne
  exact h ((alGet_isSome_iff m k).mp (Option.isSome_iff_ne_none.mpr hne))

lemma alGet_eq_some_iff_mem {β : Type _} {m : List (String × β)} (hnd : NodupKeys m)
    {k : String} {v : β} : alGet m k = some v ↔ (k, v) ∈ m := by
  induction m with
  | nil => simp [alGet]
  | cons p rest ih =>
    obtain ⟨pk, pv⟩ := p
    have hnd2 : (pk :: alKeys rest).Nodup := hnd
    have hnd' : NodupKeys rest := (List.nodup_cons.mp hnd2).2
    by_cases h : pk = k
    · subst h
      have hnotin : pk ∉ alKeys rest := (List.nodup_cons.mp hnd2).1
      have hnotmem : (pk, v) ∉ rest :=
        fun hmem => hnotin (List.mem_map.mpr ⟨(pk, v), hmem, rfl⟩)
      simp [alGet, hnotmem, eq_comm]
    · simp only [alGet, if_neg h, List.mem_cons, ih hnd']
      constructor
      · exact Or.inr
      · rintro (h2 | h2)
        · have h3 : k = pk := congrArg Prod.fst h2
          exact absurd h3.symm h
        · exact h2

lemma mem_alKeys_iff {β : Type _} (m : List (String × β)) (k : String) :
    k ∈ alKeys m ↔ ∃ v, (k, v) ∈ m := by
  constructor
  · intro h
    obtain ⟨p, hp, hfst⟩ := List.mem_map.mp h
    refine ⟨p.2, ?_⟩
    rw [← hfst]
    simpa using hp
  · rintro ⟨v, hv⟩
    exact List.mem_map.mpr ⟨(k, v), hv, rfl⟩

/-! ### JoinEngine lemmas -/

lemma collect_eq_flat (docs : List FeedDoc) :
    collect_all_offers docs = (docs.flatMap (fun d => d.offers)).foldl collectStep ([], []) := by
  suffices h : ∀ acc, docs.foldl (fun acc d => d.offers.foldl collectStep acc) acc
      = (docs.flatMap (fun d => d.offers)).foldl collectStep acc from h _
  induction docs with
  | nil => intro acc; rfl
  | cons d rest ih =>
    intro acc
    simp only [List.foldl_cons, List.flatMap_cons, List.foldl_append]
    exact ih _

lemma occList_nil (i : String) : occList [] i = 0 := rfl

lemma occList_cons_hit (o : Offer) (l : List Offer) {i : String}
    (h1 : o.offerId = i) (h2 : o.offerId ≠ "") :
    occList (o :: l) i = occList l i + 1 := by
  have hni : ¬ i = "" := h1 ▸ h2
  unfold occList
  rw [List.filter_cons, if_pos (by simp [h1, hni])]
  simp

lemma occList_cons_miss (o : Offer) (l : List Offer) {i : String}
    (h : ¬ (o.offerId = i ∧ o.offerId ≠ "")) :
    occList (o :: l) i = occList l i := by
  simp only [occList, List.filter_cons]
  rw [if_neg (by simpa using h)]

lemma foldl_collect_counts (l : List Offer) (i : String) :
    ∀ acc : List (String × ℕ) × List (String × Offer),
      alGet (l.foldl collectStep acc).1 i = optCount (alGet acc.1 i) (occList l i) := by
  induction l with
  | nil =>
    intro acc
    cases h : alGet acc.1 i <;> simp [optCount, occList, h]
  | cons o l ih =>
    intro acc
    rw [List.foldl_cons]
    by_cases hids : o.offerId = ""
    · have hstep : collectStep acc o = acc := by simp [collectStep, hids]
      rw [hstep, ih, occList_cons_miss o l (by simp [hids])]
    · by_cases heq : o.offerId = i
      · have hstep : collectStep acc o = (alBump acc.1 o.offerId, alSet acc.2 o.offerId o) := by
          simp [collectStep, hids]

        rw [hstep, ih, occList_cons_hit o l heq hids]
        have hbump : alGet (alBump acc.1 o.offerId) i
            = some ((alGet acc.1 i).getD 0 + 1) := by
          unfold alBump
          rw [heq]
          exact alGet_alSet_self _ _ _
        rw [hbump]
        cases h : alGet acc.1 i <;> simp [optCount, h] <;> omega
      · have hstep : collectStep acc o = (alBump acc.1 o.offerId, alSet acc.2 o.offerId o) := by
          simp [collectStep, hids]
        rw [hstep, ih, occList_cons_miss o l (by simp [heq])]
        have hother : alGet (alBump acc.1 o.offerId) i = alGet acc.1 i := by
          unfold alBump
          exact alGet_alSet_ne _ _ (fun hh => heq hh.symm)
        rw [hother]

lemma getLast?_cons_or {α : Type _} (x : α) (xs : List α) :
    (x :: xs).getLast? = xs.getLast?.or (some x) := by
  cases xs with
  | nil => rfl
  | cons y ys =>
    rw [List.getLast?_cons_cons]
    cases h : (y :: ys).getLast? with
    | none =>
      have : (y :: ys) ≠ [] := by simp
      rw [List.getLast?_eq_none_iff] at h
      exact absurd h this
    | some z => simp [Option.or]

lemma foldl_collect_offers (l : List Offer) (i : String) (hi : i ≠ "") :
    ∀ acc : List (String × ℕ) × List (String × Offer),
      alGet (l.foldl collectStep acc).2 i =
        ((l.filter (fun o => decide (o.offerId = i))).getLast?).or (alGet acc.2 i) := by
  induction l with
  | nil => intro acc; simp
  | cons o l ih =>
    intro acc
    rw [List.foldl_cons]
    by_cases heq : o.offerId = i
    · have hids : o.offerId ≠ "" := by rw [heq]; exact hi
      have hstep : collectStep acc o = (alBump acc.1 o.offerId, alSet acc.2 o.offerId o) := by
        simp [collectStep, hids]
      rw [hstep, ih]
      have hgets : alGet (alSet acc.2 o.offerId o) i = some o := by
        rw [heq]
        exact alGet_alSet_self _ _ _
      rw [hgets, List.filter_cons, if_pos (by simpa using heq), getLast?_cons_or]
      cases h : (l.filter (fun o => decide (o.offerId = i))).getLast? <;> simp [Option.or]
    · by_cases hids : o.offerId = ""
      · have hstep : collectStep acc o = acc := by simp [collectStep, hids]
        rw [hstep, ih, List.filter_cons, if_neg (by simpa using heq)]
      · have hstep : collectStep acc o = (alBump acc.1 o.offerId, alSet acc.2 o.offerId o) := by
          simp [collectStep, hids]
        rw [hstep, ih, List.filter_cons, if_neg (by simpa using heq)]
        rw [alGet_alSet_ne _ _ (fun hh => heq hh.symm)]

lemma counts_spec (docs : List FeedDoc) (i : String) :
    alGet (collect_all_offers docs).1 i = optCount none (occurrenceCount docs i) := by
  rw [collect_eq_flat]
  exact foldl_collect_counts _ i ([], [])

lemma offers_spec (docs : List FeedDoc) {i : String} (hi : i ≠ "") :
    alGet (collect_all_offers docs).2 i = lastOfferWith docs i := by
  rw [collect_eq_flat, foldl_collect_offers _ i hi ([], [])]
  simp [lastOfferWith, alGet]

lemma collect_offers_no_empty_key (docs : List FeedDoc) :
    alGet (collect_all_offers docs).2 "" = none := by
  rw [collect_eq_flat]
  suffices h : ∀ (l : List Offer) (acc : List (String × ℕ) × List (String × Offer)),
      alGet acc.2 "" = none → alGet (l.foldl collectStep acc).2 "" = none from
    h _ ([], []) rfl
  intro l
  induction l with
  | nil => intro acc h; exact h
  | cons o l ih =>
    intro acc h
    rw [List.foldl_cons]
    by_cases hids : o.offerId = ""
    · have hstep : collectStep acc o = acc := by simp [collectStep, hids]
      rw [hstep]; exact ih acc h
    · have hstep : collectStep acc o = (alBump acc.1 o.offerId, alSet acc.2 o.offerId o) := by
        simp [collectStep, hids]
      rw [hstep]
      refine ih _ ?_
      have : ("" : String) ≠ o.offerId := fun hh => hids hh.symm
      rw [show (alBump acc.1 o.offerId, alSet acc.2 o.offerId o).2
          = alSet acc.2 o.offerId o from rfl, alGet_alSet_ne _ _ this]
      exact h

lemma collect_nodup (docs : List FeedDoc) :
    NodupKeys (collect_all_offers docs).1 ∧ NodupKeys (collect_all_offers docs).2 := by
  rw [collect_eq_flat]
  suffices h : ∀ (l : List Offer) (acc : List (String × ℕ) × List (String × Offer)),
      NodupKeys acc.1 → NodupKeys acc.2 →
      NodupKeys ((l.foldl collectStep acc).1) ∧ NodupKeys ((l.foldl collectStep acc).2) from
    h _ ([], []) List.nodup_nil List.nodup_nil
  intro l
  induction l with
  | nil => intro acc h1 h2; exact ⟨h1, h2⟩
  | cons o l ih =>
    intro acc h1 h2
    rw [List.foldl_cons]
    by_cases hids : o.offerId = ""
    · have hstep : collectStep acc o = acc := by simp [collectStep, hids]
      rw [hstep]; exact ih acc h1 h2
    · have hstep : collectStep acc o = (alBump acc.1 o.offerId, alSet acc.2 o.offerId o) := by
        simp [collectStep, hids]
      rw [hstep]
      exact ih _ (nodupKeys_alSet h1 _ _) (nodupKeys_alSet h2 _ _)

lemma lastOfferWith_mem {docs : List FeedDoc} {i : String} {o : Offer}
    (h : lastOfferWith docs i = some o) :
    o ∈ docs.flatMap (fun d => d.offers) ∧ o.offerId = i := by
  unfold lastOfferWith at h
  have hmem : o ∈ (docs.flatMap (fun d => d.offers)).filter
      (fun o => decide (o.offerId = i)) := by
    obtain ⟨hne, heq⟩ := List.mem_getLast?_eq_getLast (x := o) h
    rw [heq]
    exact List.getLast_mem hne
  have h2 := List.mem_filter.mp hmem
  exact ⟨h2.1, by simpa using h2.2⟩

lemma lastOfferWith_isSome_iff (docs : List FeedDoc) (i : String) :
    (lastOfferWith docs i).isSome ↔ ∃ o ∈ docs.flatMap (fun d => d.offers), o.offerId = i := by
  unfold lastOfferWith
  rw [List.getLast?_isSome]
  constructor
  · intro h
    obtain ⟨o, ho⟩ := List.exists_mem_of_ne_nil _ h
    have h2 := List.mem_filter.mp ho
    exact ⟨o, h2.1, by simpa using h2.2⟩
  · rintro ⟨o, hmem, hid⟩
    exact List.ne_nil_of_mem (List.mem_filter.mpr ⟨hmem, by simpa using hid⟩)

lemma occList_pos_iff (l : List Offer) (i : String) :
    0 < occList l i ↔ ∃ o ∈ l, o.offerId = i ∧ o.offerId ≠ "" := by
  unfold occList
  rw [List.length_pos]
  constructor
  · intro h
    obtain ⟨o, ho⟩ := List.exists_mem_of_ne_nil _ h
    have h2 := List.mem_filter.mp ho
    exact ⟨o, h2.1, by simpa using h2.2⟩
  · rintro ⟨o, hmem, hprop⟩
    exact List.ne_nil_of_mem (List.mem_filter.mpr ⟨hmem, by simpa using hprop⟩)

lemma occ_pos_iff (docs : List FeedDoc) (i : String) :
    0 < occurrenceCount docs i ↔
      ∃ d ∈ docs, ∃ o ∈ d.offers, o.offerId = i ∧ o.offerId ≠ "" := by
  unfold occurrenceCount
  rw [occList_pos_iff]
  constructor
  · rintro ⟨o, hmem, hprop⟩
    obtain ⟨d, hd, ho⟩ := List.mem_flatMap.mp hmem
    exact ⟨d, hd, o, ho, hprop⟩
  · rintro ⟨d, hd, o, ho, hprop⟩
    exact ⟨o, List.mem_flatMap.mpr ⟨d, hd, ho⟩, hprop⟩

lemma occ_pos_ne_empty {docs : List FeedDoc} {i : String}
    (h : 0 < occurrenceCount docs i) : i ≠ "" := by
  obtain ⟨d, -, o, -, hid, hne⟩ := (occ_pos_iff docs i).mp h
  exact hid ▸ hne

lemma counts_eq_some_iff (docs : List FeedDoc) (i : String) (c : ℕ) :
    alGet (collect_all_offers docs).1 i = some c ↔
      (occurrenceCount docs i = c ∧ 0 < occurrenceCount docs i) := by
  rw [counts_spec]
  unfold optCount
  by_cases h : occurrenceCount docs i = 0
  · simp [h]
  · simp [h, Nat.pos_of_ne_zero h]

lemma mem_inner_join (docs : List FeedDoc) (o : Offer) :
    o ∈ inner_join_offers docs ↔
      ∃ i, alGet (collect_all_offers docs).1 i = some docs.length ∧
        alGet (collect_all_offers docs).2 i = some o := by
  obtain ⟨hnd1, hnd2⟩ := collect_nodup docs
  unfold inner_join_offers
  rw [List.mem_filterMap]
  constructor
  · rintro ⟨⟨i, c⟩, hmem, hf⟩
    dsimp only at hf
    by_cases h : c = docs.length
    · subst h
      rw [if_pos rfl] at hf
      exact ⟨i, (alGet_eq_some_iff_mem hnd1).mpr hmem, hf⟩
    · rw [if_neg h] at hf
      cases hf
  · rintro ⟨i, hc, ho⟩
    exact ⟨(i, docs.length), (alGet_eq_some_iff_mem hnd1).mp hc, by simp [ho]⟩

lemma occList_le_one {l : List Offer}
    (hnd : ((l.filter (fun o => decide (o.offerId ≠ ""))).map (fun o => o.offerId)).Nodup)
    (i : String) : occList l i ≤ 1 := by
  induction l with
  | nil => simp [occList]
  | cons o l ih =>
    by_cases hids : o.offerId = ""
    · have hfil : (o :: l).filter (fun o => decide (o.offerId ≠ ""))
          = l.filter (fun o => decide (o.offerId ≠ "")) := by
        rw [List.filter_cons, if_neg (by simp [hids])]
      rw [hfil] at hnd
      rw [occList_cons_miss o l (by simp [hids])]
      exact ih hnd
    · have hfil : (o :: l).filter (fun o => decide (o.offerId ≠ ""))
          = o :: l.filter (fun o => decide (o.offerId ≠ "")) := by
        rw [List.filter_cons, if_pos (by simpa using hids)]
      rw [hfil, List.map_cons, List.nodup_cons] at hnd
      obtain ⟨hnotin, hnd'⟩ := hnd
      by_cases heq : o.offerId = i
      · rw [occList_cons_hit o l heq hids]
        have hz : occList l i = 0 := by
          by_contra hpos
          obtain ⟨o2, ho2, hid2, hne2⟩ :=
            (occList_pos_iff l i).mp (Nat.pos_of_ne_zero hpos)
          apply hnotin
          refine List.mem_map.mpr ⟨o2, ?_, by rw [hid2, heq]⟩
          exact List.mem_filter.mpr ⟨ho2, by simpa using hne2⟩
        omega
      · rw [occList_cons_miss o l (by simp [heq])]
        exact ih hnd'

lemma occCount_cons (d : FeedDoc) (rest : List FeedDoc) (i : String) :
    occurrenceCount (d :: rest) i = occList d.offers i + occurrenceCount rest i := by
  unfold occurrenceCount
  rw [List.flatMap_cons]
  simp [occList, List.filter_append]

lemma occ_le_one (docs : List FeedDoc)
    (hnodup : ∀ d ∈ docs,
      ((d.offers.filter (fun o => decide (o.offerId ≠ ""))).map (fun o => o.offerId)).Nodup)
    (hdisj : docs.Pairwise (fun d1 d2 => ∀ o1 ∈ d1.offers, ∀ o2 ∈ d2.offers,
      o1.offerId ≠ "" → o1.offerId ≠ o2.offerId))
    (i : String) : occurrenceCount docs i ≤ 1 := by
  induction docs with
  | nil => simp [occurrenceCount, occList]
  | cons d rest ih =>
    rw [occCount_cons]
    rw [List.pairwise_cons] at hdisj
    obtain ⟨hd, hrest⟩ := hdisj
    have h1 : occList d.offers i ≤ 1 := occList_le_one (hnodup d (by simp)) i
    by_cases hz : occList d.offers i = 0
    · rw [hz]
      simpa using ih (fun d' hd' => hnodup d' (by simp [hd'])) hrest
    · obtain ⟨o1, ho1, hid1, hne1⟩ :=
        (occList_pos_iff _ _).mp (Nat.pos_of_ne_zero hz)
      have hrz : occurrenceCount rest i = 0 := by
        by_contra hrz
        obtain ⟨d2, hd2, o2, ho2, hid2, hne2⟩ :=
          (occ_pos_iff rest i).mp (Nat.pos_of_ne_zero hrz)
        exact (hd d2 hd2 o1 ho1 o2 ho2 hne1) (by rw [hid1, hid2])
      omega

/-- Claim C3 (amended): when the inner join returns at all, its result holds
exactly the representatives of the ids whose occurrence count equals the number
`N` of documents (and is positive); with `N = 0` no result — empty or
otherwise — is produced, because the super-feed template acquisition indexes
`file_names[0]` and raises `IndexError` before the join loop; and over
documents with pairwise disjoint offer-id sets — with truthy ids unique inside
each document and `N ≠ 1` — the returned result is empty. -/
theorem c3_inner_join (hasTag : FeedDoc → Bool) (docs : List FeedDoc) :
    (inner_join_feeds hasTag [] = Except.error JoinErr.indexError) ∧
    (∀ l, inner_join_feeds hasTag docs = Except.ok l →
      ∀ o : Offer, o ∈ l ↔
        (o.offerId ≠ "" ∧ occurrenceCount docs o.offerId = docs.length ∧
          0 < occurrenceCount docs o.offerId ∧
          lastOfferWith docs o.offerId = some o)) ∧
    (docs.length ≠ 1 →
      (∀ d ∈ docs,
        ((d.offers.filter (fun o => decide (o.offerId ≠ ""))).map (fun o => o.offerId)).Nodup) →
      docs.Pairwise (fun d1 d2 => ∀ o1 ∈ d1.offers, ∀ o2 ∈ d2.offers,
        o1.offerId ≠ "" → o1.offerId ≠ o2.offerId) →
      ∀ l, inner_join_feeds hasTag docs = Except.ok l → l = []) := by
  have hok : ∀ l, inner_join_feeds hasTag docs = Except.ok l →
      l = inner_join_offers docs := by
    intro l h
    unfold inner_join_feeds at h
    cases hsf : super_feed hasTag docs with
    | error e =>
      rw [hsf] at h
      cases h
    | ok u =>
      rw [hsf] at h
      dsimp only at h
      injection h with h
      exact h.symm
  refine ⟨rfl, ?_, ?_⟩
  · intro l hl o
    rw [hok l hl, mem_inner_join]
    constructor
    · rintro ⟨i, hc, ho⟩
      obtain ⟨hocc, hpos⟩ := (counts_eq_some_iff docs i docs.length).mp hc
      have hi : i ≠ "" := occ_pos_ne_empty hpos
      rw [offers_spec docs hi] at ho
      have hid : o.offerId = i := (lastOfferWith_mem ho).2
      rw [hid]
      exact ⟨hi, hocc, hpos, ho⟩
    · rintro ⟨hne, hocc, hpos, hlast⟩
      refine ⟨o.offerId, (counts_eq_some_iff docs o.offerId docs.length).mpr ⟨hocc, hpos⟩, ?_⟩
      rw [offers_spec docs hne]
      exact hlast
  · intro hlen hnodup hdisj l hl
    rw [hok l hl]
    unfold inner_join_offers
    apply List.filterMap_eq_nil_iff.mpr
    rintro ⟨i, c⟩ hmem
    obtain ⟨hnd1, -⟩ := collect_nodup docs
    have hc : alGet (collect_all_offers docs).1 i = some c :=
      (alGet_eq_some_iff_mem hnd1).mpr hmem
    obtain ⟨hocc, hpos⟩ := (counts_eq_some_iff docs i c).mp hc
    have hle := occ_le_one docs hnodup hdisj i
    have hne : c ≠ docs.length := by
      intro hcn
      rcases Nat.eq_zero_or_pos docs.length with h0 | h1
      · omega
      · omega
    dsimp only
    rw [if_neg hne]

/-- Claim C3 counterexample: with zero documents the join raises `IndexError`
instead of returning an empty result; a single document (`N = 1`) has pairwise
disjoint offer-id sets vacuously yet a non-empty join; and two documents whose
id sets are disjoint but whose first document repeats one truthy id also yield
a non-empty join — the duplicate alone reaches count `N = 2`. -/
theorem c3_counterexample :
    (inner_join_feeds (fun _ => true) [] = Except.error JoinErr.indexError) ∧
    ((List.Pairwise (fun d1 d2 => ∀ o1 ∈ d1.offers, ∀ o2 ∈ d2.offers,
        o1.offerId ≠ "" → o1.offerId ≠ o2.offerId)
      [FeedDoc.mk [] [Offer.mk "a" none none 0]]) ∧
      inner_join_feeds (fun _ => true) [FeedDoc.mk [] [Offer.mk "a" none none 0]]
        = Except.ok [Offer.mk "a" none none 0]) ∧
    ((List.Pairwise (fun d1 d2 => ∀ o1 ∈ d1.offers, ∀ o2 ∈ d2.offers,
        o1.offerId ≠ "" → o1.offerId ≠ o2.offerId)
      [FeedDoc.mk [] [Offer.mk "a" none none 0, Offer.mk "a" none none 1],
       FeedDoc.mk [] [Offer.mk "b" none none 2]]) ∧
      inner_join_feeds (fun _ => true)
        [FeedDoc.mk [] [Offer.mk "a" none none 0, Offer.mk "a" none none 1],
         FeedDoc.mk [] [Offer.mk "b" none none 2]]
        = Except.ok [Offer.mk "a" none none 1]) := by
  refine ⟨rfl, ⟨by decide, rfl⟩, ⟨by decide, rfl⟩⟩

/-- Witness for C3 (amended) at two documents with disjoint singleton id sets
and an honest `<offers>` container: the join returns, with an empty payload. -/
theorem c3_inner_join_witness :
    (([FeedDoc.mk [] [Offer.mk "a" none none 0], FeedDoc.mk [] [Offer.mk "b" none none 1]] :
        List FeedDoc).length ≠ 1) ∧
    (∀ d ∈ ([FeedDoc.mk [] [Offer.mk "a" none none 0],
        FeedDoc.mk [] [Offer.mk "b" none none 1]] : List FeedDoc),
      ((d.offers.filter (fun o => decide (o.offerId ≠ ""))).map (fun o => o.offerId)).Nodup) ∧
    (([FeedDoc.mk [] [Offer.mk "a" none none 0], FeedDoc.mk [] [Offer.mk "b" none none 1]] :
        List FeedDoc).Pairwise (fun d1 d2 => ∀ o1 ∈ d1.offers, ∀ o2 ∈ d2.offers,
      o1.offerId ≠ "" → o1.offerId ≠ o2.offerId)) ∧
    inner_join_feeds (fun _ => true) [FeedDoc.mk [] [Offer.mk "a" none none 0],
      FeedDoc.mk [] [Offer.mk "b" none none 1]] = Except.ok [] := by
  refine ⟨by decide, by decide, by decide, ?_⟩
  have hcomp : inner_join_feeds (fun _ => true)
      [FeedDoc.mk [] [Offer.mk "a" none none 0],
       FeedDoc.mk [] [Offer.mk "b" none none 1]]
      = Except.ok (inner_join_offers
        [FeedDoc.mk [] [Offer.mk "a" none none 0],
         FeedDoc.mk [] [Offer.mk "b" none none 1]]) := rfl
  have h := (c3_inner_join (fun _ => true)
    [FeedDoc.mk [] [Offer.mk "a" none none 0],
     FeedDoc.mk [] [Offer.mk "b" none none 1]]).2.2
    (by decide) (by decide) (by decide) _ hcomp
  rw [hcomp, h]

/-! ### Full outer join -/

lemma mem_foj (docs : List FeedDoc) (o : Offer) :
    o ∈ full_outer_join_feeds docs ↔
      ∃ i, alGet (collect_all_offers docs).2 i = some o := by
  obtain ⟨-, hnd2⟩ := collect_nodup docs
  unfold full_outer_join_feeds
  rw [List.mem_map]
  constructor
  · rintro ⟨⟨i, o'⟩, hmem, h⟩
    dsimp only at h
    subst h
    exact ⟨i, (alGet_eq_some_iff_mem hnd2).mpr hmem⟩
  · rintro ⟨i, h⟩
    exact ⟨(i, o), (alGet_eq_some_iff_mem hnd2).mp h, rfl⟩

lemma foj_key_id {docs : List FeedDoc} {i : String} {o : Offer}
    (h : alGet (collect_all_offers docs).2 i = some o) : o.offerId = i ∧ i ≠ "" := by
  by_cases hi : i = ""
  · rw [hi, collect_offers_no_empty_key] at h
    cases h
  · rw [offers_spec docs hi] at h
    exact ⟨(lastOfferWith_mem h).2, hi⟩

lemma lastOfferWith_split {docs : List FeedDoc} {i : String} {o : Offer}
    (h : lastOfferWith docs i = some o) :
    ∃ pre d post, docs = pre ++ d :: post ∧ o ∈ d.offers ∧
      ∀ d' ∈ post, ∀ o' ∈ d'.offers, o'.offerId ≠ i := by
  induction docs using List.reverseRecOn with
  | nil => simp [lastOfferWith] at h
  | append_singleton ds d ih =>
    have hsplit : lastOfferWith (ds ++ [d]) i
        = ((d.offers.filter (fun o' => decide (o'.offerId = i))).getLast?).or
          (lastOfferWith ds i) := by
      unfold lastOfferWith
      rw [List.flatMap_append, List.filter_append, List.getLast?_append]
      simp only [List.flatMap_cons, List.flatMap_nil, List.append_nil]
    rw [hsplit] at h
    by_cases hd : d.offers.filter (fun o' => decide (o'.offerId = i)) = []
    · rw [hd] at h
      simp only [List.getLast?_nil, Option.or] at h
      obtain ⟨pre, dd, post, hs, hmem, hpost⟩ := ih h
      refine ⟨pre, dd, post ++ [d], by rw [hs]; simp, hmem, ?_⟩
      intro d' hd' o' ho'
      rcases List.mem_append.mp hd' with hcase | hcase
      · exact hpost d' hcase o' ho'
      · have hdd : d' = d := by simpa using hcase
        subst hdd
        intro hid
        have := List.filter_eq_nil_iff.mp hd o' ho'
        simp [hid] at this
    · have hlast : (d.offers.filter (fun o' => decide (o'.offerId = i))).getLast? = some o := by
        cases hcase : (d.offers.filter (fun o' => decide (o'.offerId = i))).getLast? with
        | none =>
          rw [List.getLast?_eq_none_iff] at hcase
          exact absurd hcase hd
        | some z =>
          rw [hcase] at h
          simpa [Option.or] using h
      have hmem : o ∈ d.offers.filter (fun o' => decide (o'.offerId = i)) := by
        obtain ⟨hne2, heq⟩ := List.mem_getLast?_eq_getLast (x := o) hlast
        rw [heq]
        exact List.getLast_mem hne2
      exact ⟨ds, d, [], by simp, (List.mem_filter.mp hmem).1, by simp⟩

/-- Claim C4: the ids of the full outer join are exactly the union of the truthy
offer ids of all documents; this id set is invariant under permutation of the
document order; and the representative stored for each id is the last offer
carrying it in scan order — in particular it comes from the last document (in
the supplied order) containing that id, every later document being free of it. -/
theorem c4_full_outer_join (docs : List FeedDoc) :
    (∀ i : String,
      (∃ o ∈ full_outer_join_feeds docs, o.offerId = i) ↔
        (i ≠ "" ∧ ∃ d ∈ docs, ∃ o ∈ d.offers, o.offerId = i)) ∧
    (∀ docs' : List FeedDoc, docs.Perm docs' → ∀ i : String,
      ((∃ o ∈ full_outer_join_feeds docs, o.offerId = i) ↔
        (∃ o ∈ full_outer_join_feeds docs', o.offerId = i))) ∧
    (∀ o ∈ full_outer_join_feeds docs,
      lastOfferWith docs o.offerId = some o ∧
      ∃ pre d post, docs = pre ++ d :: post ∧ o ∈ d.offers ∧
        ∀ d' ∈ post, ∀ o' ∈ d'.offers, o'.offerId ≠ o.offerId) := by
  have hkey : ∀ i : String,
      (∃ o ∈ full_outer_join_feeds docs, o.offerId = i) ↔
        (i ≠ "" ∧ ∃ d ∈ docs, ∃ o ∈ d.offers, o.offerId = i) := by
    intro i
    constructor
    · rintro ⟨o, hmem, hid⟩
      obtain ⟨i', halget⟩ := (mem_foj docs o).mp hmem
      obtain ⟨hid', hne'⟩ := foj_key_id halget
      have hii : i' = i := by rw [← hid', hid]
      subst hii
      rw [offers_spec docs hne'] at halget
      obtain ⟨hflat, -⟩ := lastOfferWith_mem halget
      obtain ⟨d, hd, ho⟩ := List.mem_flatMap.mp hflat
      exact ⟨hne', d, hd, o, ho, hid⟩
    · rintro ⟨hne, d, hd, o', ho', hid'⟩
      have hsome : (lastOfferWith docs i).isSome :=
        (lastOfferWith_isSome_iff docs i).mpr
          ⟨o', List.mem_flatMap.mpr ⟨d, hd, ho'⟩, hid'⟩
      obtain ⟨ostar, hostar⟩ := Option.isSome_iff_exists.mp hsome
      refine ⟨ostar, (mem_foj docs ostar).mpr ⟨i, ?_⟩, (lastOfferWith_mem hostar).2⟩
      rw [offers_spec docs hne]
      exact hostar
  refine ⟨hkey, ?_, ?_⟩
  · intro docs' hperm i
    have hkey' : ∀ i : String,
        (∃ o ∈ full_outer_join_feeds docs', o.offerId = i) ↔
          (i ≠ "" ∧ ∃ d ∈ docs', ∃ o ∈ d.offers, o.offerId = i) := by
      intro j
      constructor
      · rintro ⟨o, hmem, hid⟩
        obtain ⟨i', halget⟩ := (mem_foj docs' o).mp hmem
        obtain ⟨hid', hne'⟩ := foj_key_id halget
        have hii : i' = j := by rw [← hid', hid]
        subst hii
        rw [offers_spec docs' hne'] at halget
        obtain ⟨hflat, -⟩ := lastOfferWith_mem halget
        obtain ⟨d, hd, ho⟩ := List.mem_flatMap.mp hflat
        exact ⟨hne', d, hd, o, ho, hid⟩
      · rintro ⟨hne, d, hd, o', ho', hid'⟩
        have hsome : (lastOfferWith docs' j).isSome :=
          (lastOfferWith_isSome_iff docs' j).mpr
            ⟨o', List.mem_flatMap.mpr ⟨d, hd, ho'⟩, hid'⟩
        obtain ⟨ostar, hostar⟩ := Option.isSome_iff_exists.mp hsome
        refine ⟨ostar, (mem_foj docs' ostar).mpr ⟨j, ?_⟩, (lastOfferWith_mem hostar).2⟩
        rw [offers_spec docs' hne]
        exact hostar
    rw [hkey i, hkey' i]
    constructor
    · rintro ⟨hne, d, hd, rest⟩
      exact ⟨hne, d, hperm.mem_iff.mp hd, rest⟩
    · rintro ⟨hne, d, hd, rest⟩
      exact ⟨hne, d, hperm.mem_iff.mpr hd, rest⟩
  · intro o hmem
    obtain ⟨i, halget⟩ := (mem_foj docs o).mp hmem
    obtain ⟨hid, hne⟩ := foj_key_id halget
    subst hid
    rw [offers_spec docs hne] at halget
    exact ⟨halget, lastOfferWith_split halget⟩

/-- Witness for C4 at two concrete documents sharing the id `"a"`. -/
theorem c4_full_outer_join_witness :
    ((∃ o ∈ full_outer_join_feeds [FeedDoc.mk [] [Offer.mk "a" none none 0],
        FeedDoc.mk [] [Offer.mk "a" none none 1, Offer.mk "b" none none 2]], o.offerId = "a") ↔
      (("a" : String) ≠ "" ∧ ∃ d ∈ [FeedDoc.mk [] [Offer.mk "a" none none 0],
        FeedDoc.mk [] [Offer.mk "a" none none 1, Offer.mk "b" none none 2]],
        ∃ o ∈ d.offers, o.offerId = "a")) := by
  exact (c4_full_outer_join _).1 "a"

/-- Claim C2: the outlier filter on `[10, 12, 11, 13, 100]` computes Q1 = 11 and
Q3 = 13 by linear interpolation, IQR = 2, band `[8, 16]`, keeps exactly the values
`[10, 12, 11, 13]`, and `clear_max` returns 13 while the raw max is 100. -/
theorem c2_iqr_concrete :
    quantileQ [10, 12, 11, 13, 100] (1/4) = 11 ∧
    quantileQ [10, 12, 11, 13, 100] (3/4) = 13 ∧
    quantileQ [10, 12, 11, 13, 100] (3/4) - quantileQ [10, 12, 11, 13, 100] (1/4) = 2 ∧
    lowerFence [10, 12, 11, 13, 100] = 8 ∧
    upperFence [10, 12, 11, 13, 100] = 16 ∧
    calc_quantile [10, 12, 11, 13, 100] = [10, 12, 11, 13] ∧
    clear_max [10, 12, 11, 13, 100] = 13 ∧
    listMax [10, 12, 11, 13, 100] = 100 := by
  refine ⟨?_, ?_, ?_, ?_, ?_, ?_, ?_, ?_⟩ <;> decide

/-! ### Claim C7: `_validate_xml` -/

/-- Claim C8: a network failure or validation failure makes that source settle
as `False` with no saved file, without raising; any other exception propagates
out of the per-source processing; the batch result counts exactly the sources
that succeeded out of the total; and the count is independent of the completion
order of the workers. -/
theorem c8_save_xml (fetch : String → Except FetchErr (List ℕ))
    (decode : String → List ℕ → Option String) (wellFormed : String → Bool)
    (feeds : List String) :
    (save_xml fetch decode wellFormed feeds
      = ((feeds.filter (feedSucceeds fetch decode wellFormed)).length, feeds.length)) ∧
    (∀ feed, fetch feed = .error .network →
      process_single_feed fetch decode wellFormed feed = .ok (false, none)) ∧
    (∀ feed body, fetch feed = .ok body →
      (∀ c e, validate_xml (fun e => decode e body) wellFormed body ≠ .ok c e) →
      process_single_feed fetch decode wellFormed feed = .ok (false, none)) ∧
    (∀ feed, fetch feed = .error .other →
      process_single_feed fetch decode wellFormed feed = .error ()) ∧
    (∀ feed, feedSucceeds fetch decode wellFormed feed = true ↔
      ∃ body c e, fetch feed = .ok body ∧
        validate_xml (fun e => decode e body) wellFormed body = .ok c e) ∧
    (∀ feeds' : List String, feeds.Perm feeds' →
      (save_xml fetch decode wellFormed feeds).1
        = (save_xml fetch decode wellFormed feeds').1) := by
  refine ⟨?_, ?_, ?_, ?_, ?_, ?_⟩
  · unfold save_xml
    rw [List.countP_eq_length_filter]
  · intro feed h
    simp [process_single_feed, h]
  · intro feed body h hval
    unfold process_single_feed
    rw [h]
    dsimp only
    cases hv : validate_xml (fun e => decode e body) wellFormed body with
    | ok c e => exact absurd hv (hval c e)
    | emptyXml => rfl
    | invalidXml => rfl
    | parseFailed => rfl
  · intro feed h
    simp [process_single_feed, h]
  · intro feed
    unfold feedSucceeds process_single_feed
    cases hf : fetch feed with
    | error err =>
      cases err <;> simp [hf]
    | ok body =>
      cases hv : validate_xml (fun e => decode e body) wellFormed body with
      | ok c e => simp [hf, hv]
      | emptyXml => simp [hf, hv]
      | invalidXml => simp [hf, hv]
      | parseFailed => simp [hf, hv]
  · intro feeds' hperm
    unfold save_xml
    exact hperm.countP_eq _

/-- Witness for C8: three sources — one succeeding, one with a network failure,
one with an empty body — yield the reported count `(1, 3)`, and the failing
sources settle as `False` without an exception. -/
theorem c8_save_xml_witness :
    save_xml
      (fun f => if f = "http://x/b.xml" then .error .network
        else if f = "http://x/c.xml" then .ok []
        else .ok ("<a/>".toList.map Char.toNat))
      (fun _ _ => some "<a/>") (fun _ => true)
      ["http://x/a.xml", "http://x/b.xml", "http://x/c.xml"] = (1, 3) ∧
    process_single_feed
      (fun f => if f = "http://x/b.xml" then .error .network
        else if f = "http://x/c.xml" then .ok []
        else .ok ("<a/>".toList.map Char.toNat))
      (fun _ _ => some "<a/>") (fun _ => true) "http://x/b.xml" = .ok (false, none) := by
  constructor
  · exact ((c8_save_xml _ _ _ _).1).trans (by decide)
  · exact (c8_save_xml _ _ _ ([] : List String)).2.1 "http://x/b.xml" (by rfl)

/-! ### Parent chains and root distances -/

lemma parentIter_add (amap : List (String × Option String)) (a b : ℕ) (x : String) :
    parentIter amap (a + b) x = (parentIter amap a x).bind (parentIter amap b) := by
  induction a generalizing x with
  | zero => simp [parentIter]
  | succ a ih =>
    have hra : a + 1 + b = (a + b) + 1 := by omega
    rw [hra]
    show (match alGet amap x with
      | some (some p) => parentIter amap (a + b) p
      | _ => none) = _
    cases halg : alGet amap x with
    | none => simp [parentIter, halg]
    | some po =>
      cases po with
      | none => simp [parentIter, halg]
      | some p => simp [parentIter, halg, ih]

lemma parentIter_succ_right (amap : List (String × Option String)) (j : ℕ) (x : String) :
    parentIter amap (j + 1) x = (parentIter amap j x).bind (parentIter amap 1) :=
  parentIter_add amap j 1 x

lemma parentIter_one_eq {amap : List (String × Option String)} {y p : String}
    (h : alGet amap y = some (some p)) : parentIter amap 1 y = some p := by
  simp [parentIter, h]

lemma parentIter_one_cases {amap : List (String × Option String)} {y z : String}
    (h : parentIter amap 1 y = some z) : alGet amap y = some (some z) := by
  unfold parentIter at h
  cases halg : alGet amap y with
  | none => rw [halg] at h; cases h
  | some po =>
    cases po with
    | none => rw [halg] at h; cases h
    | some p =>
      rw [halg] at h
      simp only [parentIter] at h
      cases h
      rfl

lemma dist_mono {amap : List (String × Option String)} :
    ∀ {f f' : ℕ} {x : String} {k : ℕ}, distToRoot amap f x = some k → f ≤ f' →
      distToRoot amap f' x = some k := by
  intro f
  induction f with
  | zero => intro f' x k h; cases h
  | succ f ih =>
    intro f' x k h hle
    obtain ⟨f'', rfl⟩ : ∃ f'', f' = f'' + 1 := ⟨f' - 1, by omega⟩
    cases halg : alGet amap x with
    | none =>
      unfold distToRoot at h
      rw [halg] at h
      cases h
    | some po =>
      cases po with
      | none =>
        unfold distToRoot at h ⊢
        rw [halg] at h ⊢
        exact h
      | some p =>
        unfold distToRoot at h ⊢
        rw [halg] at h ⊢
        dsimp only at h ⊢
        cases hp : distToRoot amap f p with
        | none => rw [hp] at h; cases h
        | some kp =>
          rw [hp] at h
          rw [ih hp (by omega)]
          exact h

lemma dist_lookup {amap : List (String × Option String)} {f : ℕ} {x : String} {k : ℕ}
    (h : distToRoot amap f x = some k) : ∃ v, alGet amap x = some v := by
  cases f with
  | zero => cases h
  | succ f =>
    unfold distToRoot at h
    cases halg : alGet amap x with
    | none => rw [halg] at h; cases h
    | some v => exact ⟨v, rfl⟩

lemma dist_mem_keys {amap : List (String × Option String)} {f : ℕ} {x : String} {k : ℕ}
    (h : distToRoot amap f x = some k) : x ∈ alKeys amap := by
  obtain ⟨v, hv⟩ := dist_lookup h
  exact (alGet_isSome_iff amap x).mp (by rw [hv]; rfl)

lemma dist_zero_root {amap : List (String × Option String)} {f : ℕ} {x : String}
    (h : distToRoot amap f x = some 0) : alGet amap x = some none := by
  cases f with
  | zero => cases h
  | succ f =>
    cases halg : alGet amap x with
    | none =>
      unfold distToRoot at h
      rw [halg] at h
      cases h
    | some po =>
      cases po with
      | none => rfl
      | some p =>
        unfold distToRoot at h
        rw [halg] at h
        dsimp only at h
        cases hp : distToRoot amap f p with
        | none => rw [hp] at h; cases h
        | some kp => rw [hp] at h; simp at h

lemma dist_succ_of_parent {amap : List (String × Option String)} {f : ℕ} {x p : String}
    {k : ℕ} (halg : alGet amap x = some (some p)) (hp : distToRoot amap f p = some k) :
    distToRoot amap (f + 1) x = some (k + 1) := by
  unfold distToRoot
  rw [halg]
  dsimp only
  rw [hp]
  rfl

lemma dist_succ_inv {amap : List (String × Option String)} {f : ℕ} {x p : String} {k : ℕ}
    (halg : alGet amap x = some (some p)) (hx : distToRoot amap (f + 1) x = some k) :
    ∃ k', k = k' + 1 ∧ distToRoot amap f p = some k' := by
  unfold distToRoot at hx
  rw [halg] at hx
  dsimp only at hx
  cases hp : distToRoot amap f p with
  | none => rw [hp] at hx; cases hx
  | some kp =>
    rw [hp] at hx
    cases hx
    exact ⟨kp, rfl, rfl⟩

lemma dist_fun {amap : List (String × Option String)} {f f' : ℕ} {x : String} {k k' : ℕ}
    (h : distToRoot amap f x = some k) (h' : distToRoot amap f' x = some k') : k = k' := by
  rcases Nat.le_total f f' with hle | hle
  · exact Option.some_inj.mp ((dist_mono h hle).symm.trans h')
  · exact (Option.some_inj.mp ((dist_mono h' hle).symm.trans h)).symm

lemma dist_lt_fuel {amap : List (String × Option String)} :
    ∀ {f : ℕ} {x : String} {k : ℕ}, distToRoot amap f x = some k → k < f := by
  intro f
  induction f with
  | zero => intro x k h; cases h
  | succ f ih =>
    intro x k h
    cases halg : alGet amap x with
    | none =>
      unfold distToRoot at h
      rw [halg] at h
      cases h
    | some po =>
      cases po with
      | none =>
        unfold distToRoot at h
        rw [halg] at h
        cases h
        omega
      | some p =>
        unfold distToRoot at h
        rw [halg] at h
        dsimp only at h
        cases hp : distToRoot amap f p with
        | none => rw [hp] at h; cases h
        | some kp =>
          rw [hp] at h
          cases h
          have := ih hp
          show kp + 1 < f + 1
          omega

lemma dist_min_fuel {amap : List (String × Option String)} :
    ∀ {f : ℕ} {x : String} {k : ℕ}, distToRoot amap f x = some k →
      distToRoot amap (k + 1) x = some k := by
  intro f
  induction f with
  | zero => intro x k h; cases h
  | succ f ih =>
    intro x k h
    cases halg : alGet amap x with
    | none =>
      unfold distToRoot at h
      rw [halg] at h
      cases h
    | some po =>
      cases po with
      | none =>
        unfold distToRoot at h
        rw [halg] at h
        cases h
        unfold distToRoot
        rw [halg]
      | some p =>
        unfold distToRoot at h
        rw [halg] at h
        dsimp only at h
        cases hp : distToRoot amap f p with
        | none => rw [hp] at h; cases h
        | some kp =>
          rw [hp] at h
          cases h
          exact dist_succ_of_parent halg (ih hp)

lemma dist_iter_up {amap : List (String × Option String)} {F : ℕ} {x : String} {k : ℕ}
    (h : distToRoot amap F x = some k) :
    ∀ j, j ≤ k → ∃ y, parentIter amap j x = some y ∧ distToRoot amap F y = some (k - j) := by
  induction F generalizing x k with
  | zero => cases h
  | succ F ih =>
    intro j hj
    cases j with
    | zero => exact ⟨x, rfl, by simpa using h⟩
    | succ j =>
      have hk : 1 ≤ k := by omega
      cases halg : alGet amap x with
      | none => unfold distToRoot at h; rw [halg] at h; cases h
      | some po =>
        cases po with
        | none =>
          unfold distToRoot at h
          rw [halg] at h
          cases h
          omega
        | some p =>
          obtain ⟨k', hk', hp⟩ := dist_succ_inv halg h
          obtain ⟨y, hy, hdy⟩ := ih hp j (by omega)
          refine ⟨y, ?_, ?_⟩
          · show (match alGet amap x with
              | some (some p) => parentIter amap j p
              | _ => none) = some y
            rw [halg]
            exact hy
          · rw [dist_mono hdy (Nat.le_succ F)]
            congr 1
            omega

lemma dist_iter_down {amap : List (String × Option String)} :
    ∀ {j : ℕ} {y z : String} {F k : ℕ}, parentIter amap j y = some z →
      distToRoot amap F z = some k → distToRoot amap (F + j) y = some (k + j) := by
  intro j
  induction j with
  | zero =>
    intro y z F k hy hz
    cases hy
    simpa using hz
  | succ j ih =>
    intro y z F k hy hz
    cases halg : alGet amap y with
    | none =>
      unfold parentIter at hy
      rw [halg] at hy
      cases hy
    | some po =>
      cases po with
      | none =>
        unfold parentIter at hy
        rw [halg] at hy
        cases hy
      | some p =>
        have hy' : parentIter amap j p = some z := by
          unfold parentIter at hy
          rw [halg] at hy
          exact hy
        have := ih hy' hz
        have h2 := dist_succ_of_parent halg this
        have hr : F + (j + 1) = (F + j) + 1 := by omega
        have hk : k + (j + 1) = (k + j) + 1 := by omega
        rw [hr, hk]
        exact h2

lemma dist_lt_card {amap : List (String × Option String)}
    {F : ℕ} {x : String} {k : ℕ} (h : distToRoot amap F x = some k) :
    k < amap.length := by
  set L := (List.range (k + 1)).map (fun j => (parentIter amap j x).getD "")
  have hval : ∀ j, j ≤ k → ∃ y, parentIter amap j x = some y ∧
      distToRoot amap F y = some (k - j) := dist_iter_up h
  have hlen : L.length = k + 1 := by simp [L]
  have hnodupL : L.Nodup := by
    refine List.Nodup.map_on ?_ (List.nodup_range _)
    intro a ha b hb hab
    rw [List.mem_range] at ha hb
    obtain ⟨ya, hya, hda⟩ := hval a (by omega)
    obtain ⟨yb, hyb, hdb⟩ := hval b (by omega)
    rw [hya, hyb] at hab
    simp only [Option.getD_some] at hab
    subst hab
    have := dist_fun hda hdb
    omega
  have hsub : ∀ y ∈ L, y ∈ alKeys amap := by
    intro y hy
    obtain ⟨j, hj, hjy⟩ := List.mem_map.mp hy
    rw [List.mem_range] at hj
    obtain ⟨z, hz, hdz⟩ := hval j (by omega)
    rw [hz] at hjy
    simp only [Option.getD_some] at hjy
    subst hjy
    exact dist_mem_keys hdz
  have hcard : L.length ≤ (alKeys amap).length := by
    have h1 : L.toFinset.card = L.length := List.toFinset_card_of_nodup hnodupL
    have h2 : L.toFinset ⊆ (alKeys amap).toFinset := by
      intro y hy
      rw [List.mem_toFinset] at hy ⊢
      exact hsub y hy
    have h3 := Finset.card_le_card h2
    have h4 : (alKeys amap).toFinset.card ≤ (alKeys amap).length :=
      (alKeys amap).toFinset_card_le
    omega
  have hkeyslen : (alKeys amap).length = amap.length := List.length_map _ _
  omega

lemma dist_canon {amap : List (String × Option String)}
    {F : ℕ} {x : String} {k : ℕ} (h : distToRoot amap F x = some k) :
    distToRoot amap (rollupFuel amap) x = some k := by
  have hmin := dist_min_fuel h
  have hlt := dist_lt_card h
  exact dist_mono hmin (by unfold rollupFuel; omega)

/-! ### Children, roots and subtrees -/

lemma mem_childrenOf_iff {amap : List (String × Option String)} (hnd : NodupKeys amap)
    {c x : String} : c ∈ childrenOf amap x ↔ alGet amap c = some (some x) := by
  unfold childrenOf
  rw [List.mem_map]
  constructor
  · rintro ⟨p, hp, rfl⟩
    have hmemp := List.mem_filter.mp hp
    have h2 : p.2 = some x := by simpa using hmemp.2
    have h3 : (p.1, some x) ∈ amap := by
      rw [← h2]
      simpa using hmemp.1
    exact (alGet_eq_some_iff_mem hnd).mpr h3
  · intro h
    have hmem := (alGet_eq_some_iff_mem hnd).mp h
    exact ⟨(c, some x), List.mem_filter.mpr ⟨hmem, by simp⟩, rfl⟩

lemma childrenOf_nodup {amap : List (String × Option String)} (hnd : NodupKeys amap)
    (x : String) : (childrenOf amap x).Nodup := by
  unfold childrenOf
  exact ((List.filter_sublist _).map Prod.fst).nodup hnd

lemma dist_child {amap : List (String × Option String)} (hnd : NodupKeys amap)
    {c x : String} {k : ℕ} (hc : c ∈ childrenOf amap x)
    (hx : distToRoot amap (rollupFuel amap) x = some k) :
    distToRoot amap (rollupFuel amap) c = some (k + 1) := by
  have halg := (mem_childrenOf_iff hnd).mp hc
  exact dist_canon (dist_succ_of_parent halg (dist_min_fuel hx))

lemma mem_rootCategories_iff {amap : List (String × Option String)} (hnd : NodupKeys amap)
    {r : String} : r ∈ rootCategories amap ↔ alGet amap r = some none := by
  unfold rootCategories
  rw [List.mem_map]
  constructor
  · rintro ⟨p, hp, rfl⟩
    have hmemp := List.mem_filter.mp hp
    have h2 : p.2 = none := by simpa using hmemp.2
    have h3 : (p.1, (none : Option String)) ∈ amap := by
      rw [← h2]
      simpa using hmemp.1
    exact (alGet_eq_some_iff_mem hnd).mpr h3
  · intro h
    have hmem := (alGet_eq_some_iff_mem hnd).mp h
    exact ⟨(r, none), List.mem_filter.mpr ⟨hmem, by simp⟩, rfl⟩

lemma rootCategories_nodup {amap : List (String × Option String)} (hnd : NodupKeys amap) :
    (rootCategories amap).Nodup := by
  unfold rootCategories
  exact ((List.filter_sublist _).map Prod.fst).nodup hnd

lemma dist_root {amap : List (String × Option String)} {r : String}
    (h : alGet amap r = some none) :
    distToRoot amap (rollupFuel amap) r = some 0 := by
  unfold rollupFuel distToRoot
  rw [h]

lemma isDescOf_iff_exists {amap : List (String × Option String)}
    {d x : String} {k : ℕ} (hx : distToRoot amap (rollupFuel amap) x = some k) :
    isDescOf amap d x = true ↔ ∃ j, parentIter amap j d = some x := by
  unfold isDescOf
  rw [List.any_eq_true]
  constructor
  · rintro ⟨j, hj, hbeq⟩
    exact ⟨j, by simpa using hbeq⟩
  · rintro ⟨j, hj⟩
    have hd := dist_canon (dist_iter_down hj hx)
    have hlt := dist_lt_card hd
    refine ⟨j, List.mem_range.mpr ?_, by simpa using hj⟩
    unfold rollupFuel
    omega

lemma desc_mem_keys {amap : List (String × Option String)}
    {d x : String} {k : ℕ} (hx : distToRoot amap (rollupFuel amap) x = some k)
    (h : ∃ j, parentIter amap j d = some x) : d ∈ alKeys amap := by
  obtain ⟨j, hj⟩ := h
  exact dist_mem_keys (dist_canon (dist_iter_down hj hx))

lemma mem_subtreeF_iff {amap : List (String × Option String)}
    {d x : String} {k : ℕ} (hx : distToRoot amap (rollupFuel amap) x = some k) :
    d ∈ subtreeF amap x ↔ ∃ j, parentIter amap j d = some x := by
  unfold subtreeF subtreeList
  rw [List.mem_toFinset, List.mem_filter]
  constructor
  · rintro ⟨hk, hdesc⟩
    exact (isDescOf_iff_exists hx).mp hdesc
  · intro h
    exact ⟨desc_mem_keys hx h, (isDescOf_iff_exists hx).mpr h⟩

lemma subtree_disjoint {amap : List (String × Option String)}
    {c1 c2 : String} {kc : ℕ} (h1 : distToRoot amap (rollupFuel amap) c1 = some kc)
    (h2 : distToRoot amap (rollupFuel amap) c2 = some kc) (hne : c1 ≠ c2) :
    Disjoint (subtreeF amap c1) (subtreeF amap c2) := by
  rw [Finset.disjoint_left]
  intro y hy1 hy2
  obtain ⟨j1, hj1⟩ := (mem_subtreeF_iff h1).mp hy1
  obtain ⟨j2, hj2⟩ := (mem_subtreeF_iff h2).mp hy2
  have hd1 := dist_canon (dist_iter_down hj1 h1)
  have hd2 := dist_canon (dist_iter_down hj2 h2)
  have heq : kc + j1 = kc + j2 := dist_fun hd1 hd2
  have hj : j1 = j2 := by omega
  subst hj
  rw [hj1] at hj2
  exact hne (Option.some_inj.mp hj2)

lemma not_in_child_subtree {amap : List (String × Option String)} (hnd : NodupKeys amap)
    {x c : String} {k : ℕ} (hx : distToRoot amap (rollupFuel amap) x = some k)
    (hc : c ∈ childrenOf amap x) : x ∉ subtreeF amap c := by
  intro hmem
  have hcd := dist_child hnd hc hx
  obtain ⟨j, hj⟩ := (mem_subtreeF_iff hcd).mp hmem
  have hd := dist_canon (dist_iter_down hj hcd)
  have := dist_fun hx hd
  omega

lemma subtreeF_eq_insert {amap : List (String × Option String)} (hnd : NodupKeys amap)
    {x : String} {k : ℕ} (hx : distToRoot amap (rollupFuel amap) x = some k) :
    subtreeF amap x
      = insert x ((childrenOf amap x).toFinset.biUnion (fun c => subtreeF amap c)) := by
  ext d
  rw [mem_subtreeF_iff hx, Finset.mem_insert, Finset.mem_biUnion]
  constructor
  · rintro ⟨j, hj⟩
    cases j with
    | zero => exact Or.inl (Option.some_inj.mp hj)
    | succ j =>
      right
      rw [parentIter_succ_right] at hj
      cases hyy : parentIter amap j d with
      | none =>
        rw [hyy] at hj
        cases hj
      | some y =>
        rw [hyy] at hj
        simp only [Option.some_bind] at hj
        have halg := parentIter_one_cases hj
        have hcy : y ∈ childrenOf amap x := (mem_childrenOf_iff hnd).mpr halg
        exact ⟨y, List.mem_toFinset.mpr hcy,
          (mem_subtreeF_iff (dist_child hnd hcy hx)).mpr ⟨j, hyy⟩⟩
  · rintro (rfl | ⟨c, hct, hd2⟩)
    · exact ⟨0, rfl⟩
    · have hcc := List.mem_toFinset.mp hct
      have hcd := dist_child hnd hcc hx
      obtain ⟨j, hj⟩ := (mem_subtreeF_iff hcd).mp hd2
      have halg := (mem_childrenOf_iff hnd).mp hcc
      refine ⟨j + 1, ?_⟩
      rw [parentIter_succ_right, hj]
      simp only [Option.some_bind]
      exact parentIter_one_eq halg

lemma subtree_sum_split {amap : List (String × Option String)} (hnd : NodupKeys amap)
    {x : String} {k : ℕ} (hx : distToRoot amap (rollupFuel amap) x = some k)
    (f : String → Multiset ℚ) :
    ∑ d ∈ subtreeF amap x, f d
      = f x + ((childrenOf amap x).map (fun c => ∑ d ∈ subtreeF amap c, f d)).sum := by
  rw [subtreeF_eq_insert hnd hx]
  have hxnot : x ∉ (childrenOf amap x).toFinset.biUnion (fun c => subtreeF amap c) := by
    rw [Finset.mem_biUnion]
    rintro ⟨c, hct, hmem⟩
    exact not_in_child_subtree hnd hx (List.mem_toFinset.mp hct) hmem
  rw [Finset.sum_insert hxnot]
  congr 1
  have hdisj : (↑(childrenOf amap x).toFinset : Set String).PairwiseDisjoint
      (fun c => subtreeF amap c) := by
    intro c1 h1 c2 h2 hne
    exact subtree_disjoint
      (dist_child hnd (List.mem_toFinset.mp (Finset.mem_coe.mp h1)) hx)
      (dist_child hnd (List.mem_toFinset.mp (Finset.mem_coe.mp h2)) hx) hne
  rw [Finset.sum_biUnion hdisj]
  rw [List.sum_toFinset _ (childrenOf_nodup hnd x)]

/-! ### Rollup invariants (fuel-free) -/

lemma aggKids_inv {amap : List (String × Option String)}
    {f : List (String × CatData) → String →
      Option (List ℚ × ℕ × List (String × CatData) × List String)}
    (hf : ∀ m c ps cnt m2 tr, f m c = some (ps, cnt, m2, tr) →
      alKeys m2 = alKeys m ∧ (∀ y, y ∉ tr → alGet m2 y = alGet m y) ∧
      (∀ y ∈ tr, ∃ j, parentIter amap j y = some c) ∧
      (∀ y, (alGet m2 y).map CatData.category_name
        = (alGet m y).map CatData.category_name)) :
    ∀ chs m ps cnt m2 tr, aggKids f m chs = some (ps, cnt, m2, tr) →
      alKeys m2 = alKeys m ∧ (∀ y, y ∉ tr → alGet m2 y = alGet m y) ∧
      (∀ y ∈ tr, ∃ c ∈ chs, ∃ j, parentIter amap j y = some c) ∧
      (∀ y, (alGet m2 y).map CatData.category_name
        = (alGet m y).map CatData.category_name) := by
  intro chs
  induction chs with
  | nil =>
    intro m ps cnt m2 tr h
    unfold aggKids at h
    cases h
    exact ⟨rfl, fun y _ => rfl, fun y hy => absurd hy (List.not_mem_nil y), fun y => rfl⟩
  | cons c rest ih =>
    intro m ps cnt m2 tr h
    unfold aggKids at h
    cases hf1 : f m c with
    | none => rw [hf1] at h; cases h
    | some q1 =>
      obtain ⟨ps1, cnt1, mm1, tr1⟩ := q1
      rw [hf1] at h
      dsimp only at h
      cases hk : aggKids f mm1 rest with
      | none => rw [hk] at h; cases h
      | some q2 =>
        obtain ⟨ps2, cnt2, mm2, tr2⟩ := q2
        rw [hk] at h
        dsimp only at h
        obtain ⟨hkeys1, hun1, htr1, hnm1⟩ := hf m c ps1 cnt1 mm1 tr1 hf1
        obtain ⟨hkeys2, hun2, htr2, hnm2⟩ := ih mm1 ps2 cnt2 mm2 tr2 hk
        cases h
        refine ⟨hkeys2.trans hkeys1, ?_, ?_, fun y => (hnm2 y).trans (hnm1 y)⟩
        · intro y hy
          have hy1 : y ∉ tr1 := fun hh => hy (List.mem_append.mpr (Or.inl hh))
          have hy2 : y ∉ tr2 := fun hh => hy (List.mem_append.mpr (Or.inr hh))
          exact (hun2 y hy2).trans (hun1 y hy1)
        · intro y hy
          rcases List.mem_append.mp hy with hcase | hcase
          · obtain ⟨j, hj⟩ := htr1 y hcase
            exact ⟨c, List.mem_cons_self c rest, j, hj⟩
          · obtain ⟨c', hc', j, hj⟩ := htr2 y hcase
            exact ⟨c', List.mem_cons_of_mem _ hc', j, hj⟩

lemma agg_inv {amap : List (String × Option String)} (hnd : NodupKeys amap) :
    ∀ fuel m x ps cnt m2 tr,
      aggregate_data amap fuel m x = some (ps, cnt, m2, tr) →
      alKeys m2 = alKeys m ∧
      (∀ y, y ∉ tr → alGet m2 y = alGet m y) ∧
      (∀ y ∈ tr, ∃ j, parentIter amap j y = some x) ∧
      (∀ y, (alGet m2 y).map CatData.category_name
        = (alGet m y).map CatData.category_name) := by
  intro fuel
  induction fuel with
  | zero => intro m x ps cnt m2 tr h; cases h
  | succ fuel ih =>
    intro m x ps cnt m2 tr h
    unfold aggregate_data at h
    cases hcd : alGet m x with
    | none => rw [hcd] at h; cases h
    | some cd =>
      rw [hcd] at h
      dsimp only at h
      cases hk : aggKids (aggregate_data amap fuel) m (childrenOf amap x) with
      | none => rw [hk] at h; cases h
      | some q =>
        obtain ⟨cps, ccnt, mm2, trk⟩ := q
        rw [hk] at h
        dsimp only at h
        cases h
        obtain ⟨hkeys, hun, htr, hnm⟩ :=
          aggKids_inv (fun m c ps cnt m2 tr hc => ih m c ps cnt m2 tr hc)
            (childrenOf amap x) m cps ccnt mm2 trk hk
        have hxkeys : x ∈ alKeys mm2 := by
          rw [hkeys]
          exact (alGet_isSome_iff m x).mp (by rw [hcd]; rfl)
        refine ⟨?_, ?_, ?_, ?_⟩
        · rw [alKeys_alSet_mem mm2 x _ hxkeys]
          exact hkeys
        · intro y hy
          have hyx : y ≠ x := fun hh => hy (hh ▸ List.mem_cons_self x trk)
          have hyk : y ∉ trk := fun hh => hy (List.mem_cons_of_mem _ hh)
          rw [alGet_alSet_ne mm2 _ hyx]
          exact hun y hyk
        · intro y hy
          rcases List.mem_cons.mp hy with hcase | hcase
          · exact ⟨0, by rw [hcase]; rfl⟩
          · obtain ⟨c, hc, j, hj⟩ := htr y hcase
            have halg : alGet amap c = some (some x) := (mem_childrenOf_iff hnd).mp hc
            refine ⟨j + 1, ?_⟩
            rw [parentIter_succ_right, hj]
            simp only [Option.some_bind]
            exact parentIter_one_eq halg
        · intro y
          by_cases hyx : y = x
          · subst hyx
            rw [alGet_alSet_self]
            rw [hcd]
            rfl
          · rw [alGet_alSet_ne mm2 _ hyx]
            exact hnm y

/-! ### Fuel measure and descent helpers -/

lemma filterGT_lt {amap : List (String × Option String)} {c : String} {k : ℕ}
    (hc : distToRoot amap (rollupFuel amap) c = some (k + 1)) :
    ((alKeys amap).filter (distGT amap (k + 1))).length
      < ((alKeys amap).filter (distGT amap k)).length := by
  have hsub : List.Sublist ((alKeys amap).filter (distGT amap (k + 1)))
      ((alKeys amap).filter (distGT amap k)) := by
    apply List.monotone_filter_right
    intro a ha
    unfold distGT at ha ⊢
    cases hda : distToRoot amap (rollupFuel amap) a with
    | none =>
      rw [hda] at ha
      simp at ha
    | some kd =>
      rw [hda] at ha
      have ha' : k + 1 < kd := by simpa using ha
      simpa using (by omega : k < kd)
  have hcmem : c ∈ (alKeys amap).filter (distGT amap k) := by
    rw [List.mem_filter]
    refine ⟨dist_mem_keys hc, ?_⟩
    unfold distGT
    rw [hc]
    simp
  have hcnot : c ∉ (alKeys amap).filter (distGT amap (k + 1)) := by
    rw [List.mem_filter]
    rintro ⟨-, hgt⟩
    unfold distGT at hgt
    rw [hc] at hgt
    simp at hgt
  have hlen := hsub.length_le
  rcases Nat.lt_or_ge ((alKeys amap).filter (distGT amap (k + 1))).length
      ((alKeys amap).filter (distGT amap k)).length with hlt | hge
  · exact hlt
  · have heq := hsub.eq_of_length (by omega)
    rw [heq] at hcnot
    exact absurd hcmem hcnot

lemma filterGT_le_len (amap : List (String × Option String)) (k : ℕ) :
    ((alKeys amap).filter (distGT amap k)).length ≤ amap.length := by
  have h1 := List.length_filter_le (distGT amap k) (alKeys amap)
  have h2 : (alKeys amap).length = amap.length := List.length_map _ _
  omega

lemma desc_step {amap : List (String × Option String)} (hnd : NodupKeys amap)
    {y x : String} {j : ℕ} (hj : parentIter amap (j + 1) y = some x) :
    ∃ c ∈ childrenOf amap x, parentIter amap j y = some c := by
  rw [parentIter_succ_right] at hj
  cases hyy : parentIter amap j y with
  | none => rw [hyy] at hj; cases hj
  | some z =>
    rw [hyy] at hj
    simp only [Option.some_bind] at hj
    exact ⟨z, (mem_childrenOf_iff hnd).mpr (parentIter_one_cases hj), rfl⟩

lemma parentIter_comp {amap : List (String × Option String)} {d y c : String}
    {j1 j2 : ℕ} (h1 : parentIter amap j1 d = some y)
    (h2 : parentIter amap j2 y = some c) :
    parentIter amap (j1 + j2) d = some c := by
  rw [parentIter_add, h1]
  simpa using h2

lemma subtreeF_sub {amap : List (String × Option String)} {y c : String} {kc j : ℕ}
    (hc : distToRoot amap (rollupFuel amap) c = some kc)
    (hj : parentIter amap j y = some c) :
    subtreeF amap y ⊆ subtreeF amap c := by
  have hdy := dist_canon (dist_iter_down hj hc)
  intro d hd
  obtain ⟨j1, hj1⟩ := (mem_subtreeF_iff hdy).mp hd
  exact (mem_subtreeF_iff hc).mpr ⟨j1 + j, parentIter_comp hj1 hj⟩

/-! ### The rollup computes subtree multiset sums -/

lemma aggKids_spec {amap : List (String × Option String)} (hnd : NodupKeys amap)
    (fuel : ℕ) (x : String) (k : ℕ)
    (hx : distToRoot amap (rollupFuel amap) x = some k)
    (hfuel : ((alKeys amap).filter (distGT amap k)).length < fuel + 1)
    (IH : ∀ (m : List (String × CatData)) (x' : String) (k' : ℕ),
      distToRoot amap (rollupFuel amap) x' = some k' →
      (∀ y ∈ alKeys amap, y ∈ alKeys m) →
      ((alKeys amap).filter (distGT amap k')).length < fuel →
      ∃ ps cnt m2 tr, aggregate_data amap fuel m x' = some (ps, cnt, m2, tr) ∧
        tr.Nodup ∧
        (∀ y, (∃ j, parentIter amap j y = some x') → y ∈ tr) ∧
        ((ps : Multiset ℚ) = ∑ d ∈ subtreeF amap x', directPrices m d) ∧
        (∀ y, (∃ j, parentIter amap j y = some x') →
          ∃ cd2, alGet m2 y = some cd2 ∧
            (cd2.prices : Multiset ℚ) = ∑ d ∈ subtreeF amap y, directPrices m d)) :
    ∀ (cl : List String) (m mcur : List (String × CatData)),
      cl.Nodup → (∀ c ∈ cl, c ∈ childrenOf amap x) →
      (∀ y ∈ alKeys amap, y ∈ alKeys mcur) →
      (∀ c ∈ cl, ∀ d ∈ subtreeF amap c, alGet mcur d = alGet m d) →
      ∃ ps cnt m2 tr,
        aggKids (aggregate_data amap fuel) mcur cl = some (ps, cnt, m2, tr) ∧
        tr.Nodup ∧
        (∀ y ∈ tr, ∃ c ∈ cl, ∃ j, parentIter amap j y = some c) ∧
        (∀ y, (∃ c ∈ cl, ∃ j, parentIter amap j y = some c) → y ∈ tr) ∧
        ((ps : Multiset ℚ)
          = (cl.map (fun c => ∑ d ∈ subtreeF amap c, directPrices m d)).sum) ∧
        (∀ y, (∃ c ∈ cl, ∃ j, parentIter amap j y = some c) →
          ∃ cd2, alGet m2 y = some cd2 ∧
            (cd2.prices : Multiset ℚ) = ∑ d ∈ subtreeF amap y, directPrices m d) ∧
        (∀ y, y ∉ tr → alGet m2 y = alGet mcur y) ∧
        alKeys m2 = alKeys mcur := by
  intro cl
  induction cl with
  | nil =>
    intro m mcur hndcl hcl hkeys hfresh
    refine ⟨[], 0, mcur, [], rfl, List.nodup_nil, ?_, ?_, by simp, ?_, fun y _ => rfl, rfl⟩
    · intro y hy
      exact absurd hy (List.not_mem_nil y)
    · rintro y ⟨c, hc, -⟩
      exact absurd hc (List.not_mem_nil c)
    · rintro y ⟨c, hc, -⟩
      exact absurd hc (List.not_mem_nil c)
  | cons c rest ih =>
    intro m mcur hndcl hcl hkeys hfresh
    have hcch : c ∈ childrenOf amap x := hcl c (List.mem_cons_self c rest)
    have hdc : distToRoot amap (rollupFuel amap) c = some (k + 1) :=
      dist_child hnd hcch hx
    have hfc : ((alKeys amap).filter (distGT amap (k + 1))).length < fuel := by
      have := filterGT_lt hdc
      omega
    obtain ⟨ps1, cnt1, mm1, tr1, hagg1, hnd1, hcov1, hps1, hvals1⟩ :=
      IH mcur c (k + 1) hdc hkeys hfc
    obtain ⟨hkeys1, hun1, htr1, -⟩ :=
      agg_inv hnd fuel mcur c ps1 cnt1 mm1 tr1 hagg1
    have hcnotr : c ∉ rest := (List.nodup_cons.mp hndcl).1
    have htr1sub : ∀ y ∈ tr1, y ∈ subtreeF amap c := by
      intro y hy
      obtain ⟨j, hj⟩ := htr1 y hy
      exact (mem_subtreeF_iff hdc).mpr ⟨j, hj⟩
    have hfresh2 : ∀ c' ∈ rest, ∀ d ∈ subtreeF amap c', alGet mm1 d = alGet m d := by
      intro c' hc' d hd
      have hcc' : c' ∈ childrenOf amap x := hcl c' (List.mem_cons_of_mem c hc')
      have hdc' : distToRoot amap (rollupFuel amap) c' = some (k + 1) :=
        dist_child hnd hcc' hx
      have hne : c ≠ c' := by
        rintro rfl
        exact hcnotr hc'
      have hdnot : d ∉ tr1 := by
        intro hdt
        exact (Finset.disjoint_left.mp (subtree_disjoint hdc hdc' hne))
          (htr1sub d hdt) hd
      rw [hun1 d hdnot]
      exact hfresh c' (List.mem_cons_of_mem c hc') d hd
    obtain ⟨ps2, cnt2, mm2, tr2, hagg2, hnd2r, htr2, hcov2, hps2, hvals2, hun2, hkeys2⟩ :=
      ih m mm1 (List.nodup_cons.mp hndcl).2
        (fun c' hc' => hcl c' (List.mem_cons_of_mem c hc'))
        (fun y hy => by rw [hkeys1]; exact hkeys y hy) hfresh2
    have htr2sub : ∀ y ∈ tr2, ∃ c' ∈ rest, y ∈ subtreeF amap c' := by
      intro y hy
      obtain ⟨c', hc', j, hj⟩ := htr2 y hy
      have hcc' : c' ∈ childrenOf amap x := hcl c' (List.mem_cons_of_mem c hc')
      exact ⟨c', hc', (mem_subtreeF_iff (dist_child hnd hcc' hx)).mpr ⟨j, hj⟩⟩
    have hdisj12 : ∀ y ∈ tr1, y ∉ tr2 := by
      intro y hy1 hy2
      obtain ⟨c', hc', hyc'⟩ := htr2sub y hy2
      have hcc' : c' ∈ childrenOf amap x := hcl c' (List.mem_cons_of_mem c hc')
      have hne : c ≠ c' := by
        rintro rfl
        exact hcnotr hc'
      exact (Finset.disjoint_left.mp
        (subtree_disjoint hdc (dist_child hnd hcc' hx) hne)) (htr1sub y hy1) hyc'
    have hps1m : (ps1 : Multiset ℚ) = ∑ d ∈ subtreeF amap c, directPrices m d := by
      rw [hps1]
      apply Finset.sum_congr rfl
      intro d hd
      unfold directPrices
      rw [hfresh c (List.mem_cons_self c rest) d hd]
    refine ⟨ps1 ++ ps2, cnt1 + cnt2, mm2, tr1 ++ tr2, ?_, ?_, ?_, ?_, ?_, ?_, ?_,
      hkeys2.trans hkeys1⟩
    · unfold aggKids
      rw [hagg1]
      dsimp only
      rw [hagg2]
    · rw [List.nodup_append]
      exact ⟨hnd1, hnd2r, hdisj12⟩
    · intro y hy
      rcases List.mem_append.mp hy with hcase | hcase
      · obtain ⟨j, hj⟩ := htr1 y hcase
        exact ⟨c, List.mem_cons_self c rest, j, hj⟩
      · obtain ⟨c', hc', j, hj⟩ := htr2 y hcase
        exact ⟨c', List.mem_cons_of_mem c hc', j, hj⟩
    · rintro y ⟨c0, hc0, j, hj⟩
      rcases List.mem_cons.mp hc0 with hcase | hcase
      · subst hcase
        exact List.mem_append.mpr (Or.inl (hcov1 y ⟨j, hj⟩))
      · exact List.mem_append.mpr (Or.inr (hcov2 y ⟨c0, hcase, j, hj⟩))
    · rw [List.map_cons, List.sum_cons, ← hps1m, ← hps2]
      exact (Multiset.coe_add ps1 ps2).symm
    · rintro y ⟨c0, hc0, j, hj⟩
      rcases List.mem_cons.mp hc0 with hcase | hcase
      · subst hcase
        obtain ⟨cd2, hget, hval⟩ := hvals1 y ⟨j, hj⟩
        have hymem : y ∈ subtreeF amap c0 :=
          (mem_subtreeF_iff hdc).mpr ⟨j, hj⟩
        have hynot2 : y ∉ tr2 := by
          intro hy2
          obtain ⟨c', hc', hyc'⟩ := htr2sub y hy2
          have hcc' : c' ∈ childrenOf amap x := hcl c' (List.mem_cons_of_mem c0 hc')
          have hne : c0 ≠ c' := by
            rintro rfl
            exact hcnotr hc'
          exact (Finset.disjoint_left.mp
            (subtree_disjoint hdc (dist_child hnd hcc' hx) hne)) hymem hyc'
        refine ⟨cd2, by rw [hun2 y hynot2]; exact hget, ?_⟩
        rw [hval]
        apply Finset.sum_congr rfl
        intro d hd
        unfold directPrices
        rw [hfresh c0 (List.mem_cons_self c0 rest) d
          (subtreeF_sub hdc hj hd)]
      · exact hvals2 y ⟨c0, hcase, j, hj⟩
    · intro y hy
      have hy1 : y ∉ tr1 := fun hh => hy (List.mem_append.mpr (Or.inl hh))
      have hy2 : y ∉ tr2 := fun hh => hy (List.mem_append.mpr (Or.inr hh))
      exact (hun2 y hy2).trans (hun1 y hy1)

lemma agg_spec {amap : List (String × Option String)} (hnd : NodupKeys amap) :
    ∀ (fuel : ℕ) (m : List (String × CatData)) (x : String) (k : ℕ),
      distToRoot amap (rollupFuel amap) x = some k →
      (∀ y ∈ alKeys amap, y ∈ alKeys m) →
      ((alKeys amap).filter (distGT amap k)).length < fuel →
      ∃ ps cnt m2 tr, aggregate_data amap fuel m x = some (ps, cnt, m2, tr) ∧
        tr.Nodup ∧
        (∀ y, (∃ j, parentIter amap j y = some x) → y ∈ tr) ∧
        ((ps : Multiset ℚ) = ∑ d ∈ subtreeF amap x, directPrices m d) ∧
        (∀ y, (∃ j, parentIter amap j y = some x) →
          ∃ cd2, alGet m2 y = some cd2 ∧
            (cd2.prices : Multiset ℚ) = ∑ d ∈ subtreeF amap y, directPrices m d) := by
  intro fuel
  induction fuel with
  | zero =>
    intro m x k hx hkeys hfuel
    exact absurd hfuel (Nat.not_lt_zero _)
  | succ fuel ih =>
    intro m x k hx hkeys hfuel
    have hxkm : x ∈ alKeys m := hkeys x (dist_mem_keys hx)
    obtain ⟨cd, hcd⟩ := Option.isSome_iff_exists.mp ((alGet_isSome_iff m x).mpr hxkm)
    obtain ⟨psk, cntk, mk, trk, haggk, hndk, htrk, hcovk, hpsk, hvalsk, hunk, hkeysk⟩ :=
      aggKids_spec hnd fuel x k hx hfuel
        (fun m' x' k' h1 h2 h3 => ih m' x' k' h1 h2 h3)
        (childrenOf amap x) m m (childrenOf_nodup hnd x) (fun c hc => hc) hkeys
        (fun c hc d hd => rfl)
    have hps : ((cd.prices ++ psk : List ℚ) : Multiset ℚ)
        = ∑ d ∈ subtreeF amap x, directPrices m d := by
      rw [subtree_sum_split hnd hx (directPrices m), ← Multiset.coe_add]
      congr 1
      unfold directPrices
      rw [hcd]
    refine ⟨cd.prices ++ psk, cd.offers_count + cntk,
      alSet mk x ⟨cd.prices ++ psk, cd.category_name, cd.offers_count + cntk⟩,
      x :: trk, ?_, ?_, ?_, hps, ?_⟩
    · unfold aggregate_data
      rw [hcd]
      dsimp only
      rw [haggk]
    · rw [List.nodup_cons]
      refine ⟨?_, hndk⟩
      intro hxin
      obtain ⟨c, hc, j, hj⟩ := htrk x hxin
      exact not_in_child_subtree hnd hx hc
        ((mem_subtreeF_iff (dist_child hnd hc hx)).mpr ⟨j, hj⟩)
    · rintro y ⟨j, hj⟩
      cases j with
      | zero =>
        cases hj
        exact List.mem_cons_self _ _
      | succ j =>
        obtain ⟨c, hc, hj'⟩ := desc_step hnd hj
        exact List.mem_cons_of_mem _ (hcovk y ⟨c, hc, j, hj'⟩)
    · rintro y ⟨j, hj⟩
      by_cases hyx : y = x
      · subst hyx
        exact ⟨_, alGet_alSet_self mk y _, hps⟩
      · cases j with
        | zero =>
          cases hj
          exact absurd rfl hyx
        | succ j =>
          obtain ⟨c, hc, hj'⟩ := desc_step hnd hj
          obtain ⟨cd2, hget, hval⟩ := hvalsk y ⟨c, hc, j, hj'⟩
          exact ⟨cd2, by rw [alGet_alSet_ne mk _ hyx]; exact hget, hval⟩

/-! ### The root loop -/

lemma aggRoots_spec {amap : List (String × Option String)} (hnd : NodupKeys amap) :
    ∀ (rl : List String) (m mcur : List (String × CatData)),
      rl.Nodup → (∀ r ∈ rl, alGet amap r = some none) →
      (∀ y ∈ alKeys amap, y ∈ alKeys mcur) →
      (∀ r ∈ rl, ∀ d ∈ subtreeF amap r, alGet mcur d = alGet m d) →
      ∃ m2 tr, aggRoots amap rl mcur = some (m2, tr) ∧
        tr.Nodup ∧
        (∀ y ∈ tr, ∃ r ∈ rl, ∃ j, parentIter amap j y = some r) ∧
        (∀ y, (∃ r ∈ rl, ∃ j, parentIter amap j y = some r) → y ∈ tr) ∧
        (∀ y, (∃ r ∈ rl, ∃ j, parentIter amap j y = some r) →
          ∃ cd2, alGet m2 y = some cd2 ∧
            (cd2.prices : Multiset ℚ) = ∑ d ∈ subtreeF amap y, directPrices m d) ∧
        (∀ y, y ∉ tr → alGet m2 y = alGet mcur y) ∧
        alKeys m2 = alKeys mcur ∧
        (∀ y, (alGet m2 y).map CatData.category_name
          = (alGet mcur y).map CatData.category_name) := by
  intro rl
  induction rl with
  | nil =>
    intro m mcur hndrl hroots hkeys hfresh
    refine ⟨mcur, [], rfl, List.nodup_nil, ?_, ?_, ?_, fun y _ => rfl, rfl, fun y => rfl⟩
    · intro y hy
      exact absurd hy (List.not_mem_nil y)
    · rintro y ⟨r, hr, -⟩
      exact absurd hr (List.not_mem_nil r)
    · rintro y ⟨r, hr, -⟩
      exact absurd hr (List.not_mem_nil r)
  | cons r rest ih =>
    intro m mcur hndrl hroots hkeys hfresh
    have hdr : distToRoot amap (rollupFuel amap) r = some 0 :=
      dist_root (hroots r (List.mem_cons_self r rest))
    have hfuel : ((alKeys amap).filter (distGT amap 0)).length < rollupFuel amap := by
      have := filterGT_le_len amap 0
      unfold rollupFuel
      omega
    obtain ⟨ps1, cnt1, mm1, tr1, hagg1, hnd1, hcov1, hps1, hvals1⟩ :=
      agg_spec hnd (rollupFuel amap) mcur r 0 hdr hkeys hfuel
    obtain ⟨hkeys1, hun1, htr1, hnm1⟩ :=
      agg_inv hnd (rollupFuel amap) mcur r ps1 cnt1 mm1 tr1 hagg1
    have hrnotr : r ∉ rest := (List.nodup_cons.mp hndrl).1
    have htr1sub : ∀ y ∈ tr1, y ∈ subtreeF amap r := by
      intro y hy
      obtain ⟨j, hj⟩ := htr1 y hy
      exact (mem_subtreeF_iff hdr).mpr ⟨j, hj⟩
    have hdrest : ∀ r' ∈ rest, distToRoot amap (rollupFuel amap) r' = some 0 :=
      fun r' hr' => dist_root (hroots r' (List.mem_cons_of_mem r hr'))
    have hfresh2 : ∀ r' ∈ rest, ∀ d ∈ subtreeF amap r', alGet mm1 d = alGet m d := by
      intro r' hr' d hd
      have hne : r ≠ r' := by
        rintro rfl
        exact hrnotr hr'
      have hdnot : d ∉ tr1 := by
        intro hdt
        exact (Finset.disjoint_left.mp (subtree_disjoint hdr (hdrest r' hr') hne))
          (htr1sub d hdt) hd
      rw [hun1 d hdnot]
      exact hfresh r' (List.mem_cons_of_mem r hr') d hd
    obtain ⟨m3, tr2, hagg2, hnd2r, htr2, hcov2, hvals2, hun2, hkeys2, hnm2⟩ :=
      ih m mm1 (List.nodup_cons.mp hndrl).2
        (fun r' hr' => hroots r' (List.mem_cons_of_mem r hr'))
        (fun y hy => by rw [hkeys1]; exact hkeys y hy) hfresh2
    have htr2sub : ∀ y ∈ tr2, ∃ r' ∈ rest, y ∈ subtreeF amap r' := by
      intro y hy
      obtain ⟨r', hr', j, hj⟩ := htr2 y hy
      exact ⟨r', hr', (mem_subtreeF_iff (hdrest r' hr')).mpr ⟨j, hj⟩⟩
    have hdisj12 : ∀ y ∈ tr1, y ∉ tr2 := by
      intro y hy1 hy2
      obtain ⟨r', hr', hyr'⟩ := htr2sub y hy2
      have hne : r ≠ r' := by
        rintro rfl
        exact hrnotr hr'
      exact (Finset.disjoint_left.mp
        (subtree_disjoint hdr (hdrest r' hr') hne)) (htr1sub y hy1) hyr'
    refine ⟨m3, tr1 ++ tr2, ?_, ?_, ?_, ?_, ?_, ?_, hkeys2.trans hkeys1,
      fun y => (hnm2 y).trans (hnm1 y)⟩
    · unfold aggRoots
      rw [hagg1]
      dsimp only
      rw [hagg2]
    · rw [List.nodup_append]
      exact ⟨hnd1, hnd2r, hdisj12⟩
    · intro y hy
      rcases List.mem_append.mp hy with hcase | hcase
      · obtain ⟨j, hj⟩ := htr1 y hcase
        exact ⟨r, List.mem_cons_self r rest, j, hj⟩
      · obtain ⟨r', hr', j, hj⟩ := htr2 y hcase
        exact ⟨r', List.mem_cons_of_mem r hr', j, hj⟩
    · rintro y ⟨r0, hr0, j, hj⟩
      rcases List.mem_cons.mp hr0 with hcase | hcase
      · subst hcase
        exact List.mem_append.mpr (Or.inl (hcov1 y ⟨j, hj⟩))
      · exact List.mem_append.mpr (Or.inr (hcov2 y ⟨r0, hcase, j, hj⟩))
    · rintro y ⟨r0, hr0, j, hj⟩
      rcases List.mem_cons.mp hr0 with hcase | hcase
      · subst hcase
        obtain ⟨cd2, hget, hval⟩ := hvals1 y ⟨j, hj⟩
        have hymem : y ∈ subtreeF amap r0 := (mem_subtreeF_iff hdr).mpr ⟨j, hj⟩
        have hynot2 : y ∉ tr2 := by
          intro hy2
          obtain ⟨r', hr', hyr'⟩ := htr2sub y hy2
          have hne : r0 ≠ r' := by
            rintro rfl
            exact hrnotr hr'
          exact (Finset.disjoint_left.mp
            (subtree_disjoint hdr (hdrest r' hr') hne)) hymem hyr'
        refine ⟨cd2, by rw [hun2 y hynot2]; exact hget, ?_⟩
        rw [hval]
        apply Finset.sum_congr rfl
        intro d hd
        unfold directPrices
        rw [hfresh r0 (List.mem_cons_self r0 rest) d (subtreeF_sub hdr hj hd)]
      · exact hvals2 y ⟨r0, hcase, j, hj⟩
    · intro y hy
      have hy1 : y ∉ tr1 := fun hh => hy (List.mem_append.mpr (Or.inl hh))
      have hy2 : y ∉ tr2 := fun hh => hy (List.mem_append.mpr (Or.inr hh))
      exact (hun2 y hy2).trans (hun1 y hy1)

lemma aggregateAll_spec {amap : List (String × Option String)} (hnd : NodupKeys amap)
    (m : List (String × CatData)) (hkeys : ∀ y ∈ alKeys amap, y ∈ alKeys m) :
    ∃ m2 tr, aggregateAll amap m = some (m2, tr) ∧
      tr.Nodup ∧
      (∀ y ∈ tr, reachesRoot amap y = true) ∧
      (∀ y, y ∉ tr → alGet m2 y = alGet m y) ∧
      (∀ y k, distToRoot amap (rollupFuel amap) y = some k →
        ∃ cd2, alGet m2 y = some cd2 ∧
          (cd2.prices : Multiset ℚ) = ∑ d ∈ subtreeF amap y, directPrices m d) ∧
      alKeys m2 = alKeys m ∧
      (∀ y, (alGet m2 y).map CatData.category_name
        = (alGet m y).map CatData.category_name) ∧
      (∀ y, reachesRoot amap y = false → alGet m2 y = alGet m y) := by
  obtain ⟨m2, tr, hagg, hndtr, htr, hcov, hvals, hun, hkeq, hnm⟩ :=
    aggRoots_spec hnd (rootCategories amap) m m (rootCategories_nodup hnd)
      (fun r hr => (mem_rootCategories_iff hnd).mp hr) hkeys
      (fun r hr d hd => rfl)
  have hreach : ∀ y ∈ tr, reachesRoot amap y = true := by
    intro y hy
    obtain ⟨r, hr, j, hj⟩ := htr y hy
    have hdr : distToRoot amap (rollupFuel amap) r = some 0 :=
      dist_root ((mem_rootCategories_iff hnd).mp hr)
    have := dist_canon (dist_iter_down hj hdr)
    unfold reachesRoot
    rw [this]
    rfl
  refine ⟨m2, tr, hagg, hndtr, hreach, hun, ?_, hkeq, hnm, ?_⟩
  · intro y k hk
    obtain ⟨z, hz, hdz⟩ := dist_iter_up hk k (le_refl k)
    have hdz0 : distToRoot amap (rollupFuel amap) z = some 0 := by
      rw [hdz]
      congr 1
      omega
    have hzroot : z ∈ rootCategories amap :=
      (mem_rootCategories_iff hnd).mpr (dist_zero_root hdz0)
    exact hvals y ⟨z, hzroot, k, hz⟩
  · intro y hyf
    apply hun
    intro hmem
    rw [hreach y hmem] at hyf
    cases hyf

/-! ### The build phase: `all_categories` and `category_data` -/

lemma mem_alKeys_alSet {β : Type _} (m : List (String × β)) (k y : String) (v : β) :
    y ∈ alKeys (alSet m k v) ↔ y = k ∨ y ∈ alKeys m := by
  by_cases hk : k ∈ alKeys m
  · rw [alKeys_alSet_mem m k v hk]
    constructor
    · exact Or.inr
    · rintro (rfl | h)
      · exact hk
      · exact h
  · rw [alKeys_alSet_not_mem m k v hk, List.mem_append]
    simp [or_comm]

lemma mem_keys_foldl_alSet {β γ : Type _} (key : γ → String) (val : γ → β) :
    ∀ (l : List γ) (m0 : List (String × β)) (y : String),
      y ∈ alKeys (l.foldl (fun m c => alSet m (key c) (val c)) m0) ↔
        y ∈ alKeys m0 ∨ ∃ c ∈ l, key c = y := by
  intro l
  induction l with
  | nil =>
    intro m0 y
    simp
  | cons c rest ih =>
    intro m0 y
    rw [List.foldl_cons, ih, mem_alKeys_alSet]
    constructor
    · rintro ((rfl | h) | ⟨c', hc', rfl⟩)
      · exact Or.inr ⟨c, List.mem_cons_self c rest, rfl⟩
      · exact Or.inl h
      · exact Or.inr ⟨c', List.mem_cons_of_mem c hc', rfl⟩
    · rintro (h | ⟨c', hc', rfl⟩)
      · exact Or.inl (Or.inr h)
      · rcases List.mem_cons.mp hc' with hcase | hcase
        · subst hcase
          exact Or.inl (Or.inl rfl)
        · exact Or.inr ⟨c', hcase, rfl⟩

lemma nodupKeys_foldl_alSet {β γ : Type _} (key : γ → String) (val : γ → β) :
    ∀ (l : List γ) (m0 : List (String × β)), NodupKeys m0 →
      NodupKeys (l.foldl (fun m c => alSet m (key c) (val c)) m0) := by
  intro l
  induction l with
  | nil => intro m0 h; exact h
  | cons c rest ih => intro m0 h; exact ih _ (nodupKeys_alSet h _ _)

lemma nodupKeys_buildAllCategories (cats : List Category) :
    NodupKeys (buildAllCategories cats) := by
  unfold buildAllCategories
  exact nodupKeys_foldl_alSet (fun c => c.id) (fun c => c.parentId) cats []
    List.nodup_nil

lemma nodupKeys_buildCategoryData (cats : List Category) :
    NodupKeys (buildCategoryData cats) := by
  unfold buildCategoryData
  exact nodupKeys_foldl_alSet (fun c => c.id)
    (fun c => (⟨[], c.name, 0⟩ : CatData)) cats [] List.nodup_nil

lemma mem_keys_buildAllCategories (cats : List Category) (y : String) :
    y ∈ alKeys (buildAllCategories cats) ↔ ∃ c ∈ cats, c.id = y := by
  have h := mem_keys_foldl_alSet (fun c => c.id) (fun c => c.parentId) cats [] y
  simpa [alKeys] using h

lemma mem_keys_buildCategoryData (cats : List Category) (y : String) :
    y ∈ alKeys (buildCategoryData cats) ↔ ∃ c ∈ cats, c.id = y := by
  have h := mem_keys_foldl_alSet (fun c => c.id)
    (fun c => (⟨[], c.name, 0⟩ : CatData)) cats [] y
  simpa [alKeys] using h

lemma addOfferData_cons (m0 : List (String × CatData)) (o : Offer)
    (rest : List Offer) :
    addOfferData m0 (o :: rest)
      = addOfferData
          (match o.categoryId, o.price with
           | some cid, some p =>
             let cd := (alGet m0 cid).getD ⟨[], "", 0⟩
             alSet m0 cid ⟨cd.prices ++ [p], cd.category_name, cd.offers_count + 1⟩
           | _, _ => m0) rest := rfl

lemma mem_keys_addOfferData :
    ∀ (offers : List Offer) (m0 : List (String × CatData)) (y : String),
      y ∈ alKeys (addOfferData m0 offers) ↔
        y ∈ alKeys m0 ∨ ∃ o ∈ offers, o.categoryId = some y ∧ (o.price).isSome := by
  intro offers
  induction offers with
  | nil =>
    intro m0 y
    simp [addOfferData]
  | cons o rest ih =>
    intro m0 y
    rw [addOfferData_cons]
    cases hcid : o.categoryId with
    | none =>
      rw [ih]
      constructor
      · rintro (h | ⟨o', ho', hid, hp⟩)
        · exact Or.inl h
        · exact Or.inr ⟨o', List.mem_cons_of_mem o ho', hid, hp⟩
      · rintro (h | ⟨o', ho', hid, hp⟩)
        · exact Or.inl h
        · rcases List.mem_cons.mp ho' with hcase | hcase
          · subst hcase
            rw [hcid] at hid
            cases hid
          · exact Or.inr ⟨o', hcase, hid, hp⟩
    | some cid =>
      cases hp : o.price with
      | none =>
        rw [ih]
        constructor
        · rintro (h | ⟨o', ho', hid, hpp⟩)
          · exact Or.inl h
          · exact Or.inr ⟨o', List.mem_cons_of_mem o ho', hid, hpp⟩
        · rintro (h | ⟨o', ho', hid, hpp⟩)
          · exact Or.inl h
          · rcases List.mem_cons.mp ho' with hcase | hcase
            · subst hcase
              rw [hp] at hpp
              cases hpp
            · exact Or.inr ⟨o', hcase, hid, hpp⟩
      | some p =>
        rw [ih, mem_alKeys_alSet]
        constructor
        · rintro ((rfl | h) | ⟨o', ho', hid, hpp⟩)
          · exact Or.inr ⟨o, List.mem_cons_self o rest, hcid, by rw [hp]; rfl⟩
          · exact Or.inl h
          · exact Or.inr ⟨o', List.mem_cons_of_mem o ho', hid, hpp⟩
        · rintro (h | ⟨o', ho', hid, hpp⟩)
          · exact Or.inl (Or.inr h)
          · rcases List.mem_cons.mp ho' with hcase | hcase
            · subst hcase
              rw [hcid] at hid
              exact Or.inl (Or.inl (Option.some_inj.mp hid).symm)
            · exact Or.inr ⟨o', hcase, hid, hpp⟩

lemma nodupKeys_addOfferData :
    ∀ (offers : List Offer) (m0 : List (String × CatData)), NodupKeys m0 →
      NodupKeys (addOfferData m0 offers) := by
  intro offers
  induction offers with
  | nil => intro m0 h; exact h
  | cons o rest ih =>
    intro m0 h
    rw [addOfferData_cons]
    apply ih
    cases o.categoryId with
    | none => exact h
    | some cid =>
      cases o.price with
      | none => exact h
      | some p => exact nodupKeys_alSet h _ _

lemma addOfferData_name :
    ∀ (offers : List Offer) (m0 : List (String × CatData)) (y : String) (cd : CatData),
      alGet (addOfferData m0 offers) y = some cd →
      (∃ cd0, alGet m0 y = some cd0 ∧ cd.category_name = cd0.category_name) ∨
      (alGet m0 y = none ∧ cd.category_name = "") := by
  intro offers
  induction offers with
  | nil =>
    intro m0 y cd h
    exact Or.inl ⟨cd, h, rfl⟩
  | cons o rest ih =>
    intro m0 y cd h
    rw [addOfferData_cons] at h
    cases hcid : o.categoryId with
    | none =>
      rw [hcid] at h
      exact ih m0 y cd h
    | some cid =>
      cases hp : o.price with
      | none =>
        rw [hcid, hp] at h
        exact ih m0 y cd h
      | some p =>
        rw [hcid, hp] at h
        dsimp only at h
        by_cases hyc : y = cid
        · subst hyc
          rcases ih _ y cd h with ⟨cd1, hget1, hnm1⟩ | ⟨hget1, hnm1⟩
          · rw [alGet_alSet_self] at hget1
            cases hget1
            cases hm0 : alGet m0 y with
            | none =>
              rw [hm0] at hnm1
              exact Or.inr ⟨rfl, hnm1⟩
            | some cd0 =>
              rw [hm0] at hnm1
              exact Or.inl ⟨cd0, rfl, hnm1⟩
          · rw [alGet_alSet_self] at hget1
            cases hget1
        · rcases ih _ y cd h with ⟨cd1, hget1, hnm1⟩ | ⟨hget1, hnm1⟩
          · rw [alGet_alSet_ne m0 _ hyc] at hget1
            exact Or.inl ⟨cd1, hget1, hnm1⟩
          · rw [alGet_alSet_ne m0 _ hyc] at hget1
            exact Or.inr ⟨hget1, hnm1⟩

lemma catData_fold_name :
    ∀ (cats : List Category) (m0 : List (String × CatData)) (y : String) (cd : CatData),
      alGet (cats.foldl (fun m c => alSet m c.id ⟨[], c.name, 0⟩) m0) y = some cd →
      (∃ c ∈ cats, c.id = y ∧ cd.category_name = c.name) ∨ alGet m0 y = some cd := by
  intro cats
  induction cats with
  | nil =>
    intro m0 y cd h
    exact Or.inr h
  | cons c rest ih =>
    intro m0 y cd h
    rw [List.foldl_cons] at h
    rcases ih _ y cd h with hcase | hcase
    · obtain ⟨c', hc', hcy, hnm⟩ := hcase
      exact Or.inl ⟨c', List.mem_cons_of_mem c hc', hcy, hnm⟩
    · by_cases hyc : y = c.id
      · subst hyc
        rw [alGet_alSet_self] at hcase
        cases hcase
        exact Or.inl ⟨c, List.mem_cons_self c rest, rfl, rfl⟩
      · right
        rwa [alGet_alSet_ne m0 _ hyc] at hcase

lemma buildCategoryData_name (cats : List Category) (y : String) (cd : CatData)
    (h : alGet (buildCategoryData cats) y = some cd) :
    ∃ c ∈ cats, c.id = y ∧ cd.category_name = c.name := by
  rcases catData_fold_name cats [] y cd h with hcase | hcase
  · exact hcase
  · cases hcase

lemma amap_keys_sub_data0 (cats : List Category) (offers : List Offer) :
    ∀ y ∈ alKeys (buildAllCategories cats),
      y ∈ alKeys (addOfferData (buildCategoryData cats) offers) := by
  intro y hy
  rw [mem_keys_buildAllCategories] at hy
  rw [mem_keys_addOfferData]
  left
  rw [mem_keys_buildCategoryData]
  exact hy

/-- Claim C9: for every finite category list — including ones whose parent
chains form cycles that never terminate at `None` — the rollup started from
the roots terminates successfully (modelled by `aggregateAll` returning
`some` at the canonical finite fuel), never visits the same category twice
(the visit trace is duplicate-free), and every category whose ancestor chain
does not reach a root is left untouched by the rollup, so it is reported with
only its own direct prices from the offer scan. -/
theorem c9_rollup (cats : List Category) (offers : List Offer) :
    ∃ m2 tr,
      aggregateAll (buildAllCategories cats)
        (addOfferData (buildCategoryData cats) offers) = some (m2, tr) ∧
      tr.Nodup ∧
      (∀ c, reachesRoot (buildAllCategories cats) c = false →
        alGet m2 c = alGet (addOfferData (buildCategoryData cats) offers) c) := by
  obtain ⟨m2, tr, hagg, hndtr, hreach, hun, hvals, hkeq, hnm, hnone⟩ :=
    aggregateAll_spec (nodupKeys_buildAllCategories cats)
      (addOfferData (buildCategoryData cats) offers)
      (amap_keys_sub_data0 cats offers)
  exact ⟨m2, tr, hagg, hndtr, hnone⟩

/-- Witness for C9 at the cyclic fixture `a ↔ b` beside the root `r`: the
rollup still returns, its trace is duplicate-free, and the two cyclic
categories keep exactly their direct data. -/
theorem c9_rollup_witness :
    ∃ m2 tr,
      aggregateAll (buildAllCategories cats9)
        (addOfferData (buildCategoryData cats9) offers9) = some (m2, tr) ∧
      tr.Nodup ∧
      alGet m2 "a" = alGet (addOfferData (buildCategoryData cats9) offers9) "a" ∧
      alGet m2 "b" = alGet (addOfferData (buildCategoryData cats9) offers9) "b" := by
  obtain ⟨m2, tr, h1, h2, h3⟩ := c9_rollup cats9 offers9
  exact ⟨m2, tr, h1, h2, h3 "a" (by decide), h3 "b" (by decide)⟩

/-- Claim C1: after the rollup, the prices recorded for every category
reachable from a root (finite root distance) form exactly the multiset sum of
the direct prices of all categories in its subtree — its own plus all
descendants, each counted once; and on the concrete 3-level chain
`1 → 2 → 3` with direct prices 100, 200 and 300, the root holds all three
levels, the child holds child+grandchild only, and the grandchild only its
own. -/
theorem c1_rollup (cats : List Category) (offers : List Offer) :
    (∃ m2 tr,
      aggregateAll (buildAllCategories cats)
        (addOfferData (buildCategoryData cats) offers) = some (m2, tr) ∧
      ∀ c k, distToRoot (buildAllCategories cats)
          (rollupFuel (buildAllCategories cats)) c = some k →
        ∃ cd, alGet m2 c = some cd ∧
          (cd.prices : Multiset ℚ)
            = ∑ d ∈ subtreeF (buildAllCategories cats) c,
                directPrices (addOfferData (buildCategoryData cats) offers) d) ∧
    (∃ m2 tr,
      aggregateAll (buildAllCategories cats1)
        (addOfferData (buildCategoryData cats1) offers1) = some (m2, tr) ∧
      (alGet m2 "1").map (fun cd => (cd.prices : Multiset ℚ))
        = some (([100, 200, 300] : List ℚ) : Multiset ℚ) ∧
      (alGet m2 "2").map (fun cd => (cd.prices : Multiset ℚ))
        = some (([200, 300] : List ℚ) : Multiset ℚ) ∧
      (alGet m2 "3").map (fun cd => (cd.prices : Multiset ℚ))
        = some (([300] : List ℚ) : Multiset ℚ)) := by
  constructor
  · obtain ⟨m2, tr, hagg, hndtr, hreach, hun, hvals, hkeq, hnm, hnone⟩ :=
      aggregateAll_spec (nodupKeys_buildAllCategories cats)
        (addOfferData (buildCategoryData cats) offers)
        (amap_keys_sub_data0 cats offers)
    exact ⟨m2, tr, hagg, fun c k hk => hvals c k hk⟩
  · exact ⟨[("1", ⟨[100, 200, 300], "Root", 3⟩), ("2", ⟨[200, 300], "Child", 2⟩),
      ("3", ⟨[300], "Grand", 1⟩)], ["1", "2", "3"],
      by decide, rfl, rfl, rfl⟩

/-- Witness for C1 at the 3-level chain, instantiating the reachable-category
clause at the grandchild `3` (root distance 2). -/
theorem c1_rollup_witness :
    ∃ m2 tr,
      aggregateAll (buildAllCategories cats1)
        (addOfferData (buildCategoryData cats1) offers1) = some (m2, tr) ∧
      ∃ cd, alGet m2 "3" = some cd ∧
        (cd.prices : Multiset ℚ)
          = ∑ d ∈ subtreeF (buildAllCategories cats1) "3",
              directPrices (addOfferData (buildCategoryData cats1) offers1) d := by
  obtain ⟨m2, tr, hagg, hvals⟩ := (c1_rollup cats1 offers1).1
  exact ⟨m2, tr, hagg, hvals "3" 2 (by decide)⟩

/-- Claim C6: on a document with at least one category and one offer,
`get_offers_report` returns (never fails) one row per entry of the aggregate
mapping: the row ids are duplicate-free and are exactly the declared category
ids together with the ad-hoc ids referenced by offers with a truthy category
id and price; every row carries the run date, the feed name, the parent id
looked up in `all_categories` (`None` for roots and ad-hoc ids), and either a
declared category's name or the empty ad-hoc name; and a row built from an
empty price list has all eight price statistics equal to 0. -/
theorem c6_report (doc : FeedDoc) (dateStr fileName : String)
    (hc : doc.categories ≠ []) (ho : doc.offers ≠ []) :
    ∃ rows,
      get_offers_report doc dateStr fileName = some rows ∧
      (rows.map ReportRow.category_id).Nodup ∧
      (∀ y, y ∈ rows.map ReportRow.category_id ↔
        (∃ c ∈ doc.categories, c.id = y) ∨
        (∃ o ∈ doc.offers, o.categoryId = some y ∧ (o.price).isSome)) ∧
      (∀ row ∈ rows, row.date = dateStr ∧ row.feed_name = fileName ∧
        row.parent_id
          = (alGet (buildAllCategories doc.categories) row.category_id).getD none ∧
        ((∃ c ∈ doc.categories, c.id = row.category_id ∧
            row.category_name = c.name) ∨
          ((∀ c ∈ doc.categories, c.id ≠ row.category_id) ∧
            row.category_name = ""))) ∧
      (∀ cid cd, cd.prices = ([] : List ℚ) →
        (mkReportRow (buildAllCategories doc.categories) dateStr fileName
            cid cd).min_price = 0 ∧
        (mkReportRow (buildAllCategories doc.categories) dateStr fileName
            cid cd).clear_min_price = 0 ∧
        (mkReportRow (buildAllCategories doc.categories) dateStr fileName
            cid cd).max_price = 0 ∧
        (mkReportRow (buildAllCategories doc.categories) dateStr fileName
            cid cd).clear_max_price = 0 ∧
        (mkReportRow (buildAllCategories doc.categories) dateStr fileName
            cid cd).avg_price = 0 ∧
        (mkReportRow (buildAllCategories doc.categories) dateStr fileName
            cid cd).clear_avg_price = 0 ∧
        (mkReportRow (buildAllCategories doc.categories) dateStr fileName
            cid cd).median_price = 0 ∧
        (mkReportRow (buildAllCategories doc.categories) dateStr fileName
            cid cd).clear_median_price = 0) := by
  have hcond : ¬ (doc.categories = [] ∨ doc.offers = []) := by
    rintro (h | h)
    · exact hc h
    · exact ho h
  obtain ⟨m2, tr, hagg, hndtr, hreach, hun, hvals, hkeq, hnm, hnone⟩ :=
    aggregateAll_spec (nodupKeys_buildAllCategories doc.categories)
      (addOfferData (buildCategoryData doc.categories) doc.offers)
      (amap_keys_sub_data0 doc.categories doc.offers)
  have hndm2 : NodupKeys m2 := by
    unfold NodupKeys
    rw [hkeq]
    exact nodupKeys_addOfferData doc.offers _ (nodupKeys_buildCategoryData doc.categories)
  have hids : (m2.map (fun p => mkReportRow (buildAllCategories doc.categories)
      dateStr fileName p.1 p.2)).map ReportRow.category_id = alKeys m2 := by
    rw [List.map_map]
    rfl
  refine ⟨m2.map (fun p => mkReportRow (buildAllCategories doc.categories)
    dateStr fileName p.1 p.2), ?_, ?_, ?_, ?_, ?_⟩
  · unfold get_offers_report
    rw [if_neg hcond]
    dsimp only
    rw [hagg]
  · rw [hids]
    have : NodupKeys m2 := hndm2
    exact this
  · intro y
    rw [hids, hkeq, mem_keys_addOfferData, mem_keys_buildCategoryData]
  · intro row hrow
    obtain ⟨p, hp, rfl⟩ := List.mem_map.mp hrow
    refine ⟨rfl, rfl, rfl, ?_⟩
    have hgetm2 : alGet m2 p.1 = some p.2 := (alGet_eq_some_iff_mem hndm2).mpr hp
    have hname := hnm p.1
    rw [hgetm2] at hname
    cases hd0 : alGet (addOfferData (buildCategoryData doc.categories) doc.offers) p.1 with
    | none =>
      rw [hd0] at hname
      cases hname
    | some cd0 =>
      rw [hd0] at hname
      have hpname : p.2.category_name = cd0.category_name :=
        Option.some_inj.mp hname
      rcases addOfferData_name doc.offers (buildCategoryData doc.categories)
          p.1 cd0 hd0 with ⟨cd1, hget1, hnm1⟩ | ⟨hget1, hnm1⟩
      · obtain ⟨c, hcmem, hcid, hcname⟩ :=
          buildCategoryData_name doc.categories p.1 cd1 hget1
        left
        refine ⟨c, hcmem, hcid, ?_⟩
        show p.2.category_name = c.name
        rw [hpname, hnm1, hcname]
      · right
        constructor
        · intro c hcmem heq
          have : p.1 ∈ alKeys (buildCategoryData doc.categories) :=
            (mem_keys_buildCategoryData doc.categories p.1).mpr ⟨c, hcmem, heq⟩
          have hsome := (alGet_isSome_iff (buildCategoryData doc.categories) p.1).mpr this
          rw [hget1] at hsome
          cases hsome
        · show p.2.category_name = ""
          rw [hpname, hnm1]
  · intro cid cd hcd
    simp [mkReportRow, hcd]

/-- Witness for C6 at a document with one declared root and one offer
referencing the undeclared category `2`. -/
theorem c6_report_witness :
    doc6.categories ≠ [] ∧ doc6.offers ≠ [] ∧
    ∃ rows, get_offers_report doc6 "2024-01-01" "feed.xml" = some rows ∧
      (rows.map ReportRow.category_id).Nodup := by
  obtain ⟨rows, h1, h2, -, -, -⟩ :=
    c6_report doc6 "2024-01-01" "feed.xml" (by decide) (by decide)
  exact ⟨by decide, by decide, rows, h1, h2⟩

/-- Claim C6 counterexample: a document with a declared category but no offers
is skipped by `get_offers_report` — it returns zero rows even though the
aggregate mapping the claim quantifies over would contain the declared
category `1`. -/
theorem c6_counterexample :
    doc6skip.categories ≠ [] ∧
    get_offers_report doc6skip "2024-01-01" "feed.xml" = some [] := by
  exact ⟨by decide, rfl⟩

end

end EaptekaFeed
